import Mathlib

/-!
Verification development for the yoink release-installer core
(`src/lib.rs`): asset selection, archive-name classification, binary
location, the install ledger, and the install copy loop, shallowly
embedded as executable Lean definitions mirroring the Rust source.

Strings are modelled as Lean `String`/`List Char`; Rust's
`str::to_lowercase` is modelled character-wise (ASCII case mapping,
which agrees with Rust on ASCII data such as asset and path names).
Paths are modelled as lists of components; `Path::to_string_lossy`
length is the length of the components joined with `/` (bytes and
chars agree on ASCII).
-/

set_option maxRecDepth 8000

deriving instance DecidableEq for Except

namespace Yoink

/-! ## String helpers modelling Rust `str` methods -/

/-- Rust `str::to_lowercase`, character-wise (ASCII case mapping). -/
def lowerChars (s : List Char) : List Char := s.map Char.toLower

/-- Rust `str::contains(pat)`: `pat` occurs as a contiguous substring. -/
def rustContains (hay pat : List Char) : Bool :=
  match hay with
  | [] => pat.isEmpty
  | _ :: t => pat.isPrefixOf hay || rustContains t pat

/-- Rust `str::ends_with(pat)`. -/
def rustEndsWith (hay pat : List Char) : Bool := pat.isSuffixOf hay

/-- Rust `str::starts_with(pat)`. -/
def rustStartsWith (hay pat : List Char) : Bool := pat.isPrefixOf hay

/-- Rust `str::eq_ignore_ascii_case`. -/
def eq_ignore_ascii_case (a b : String) : Bool :=
  lowerChars a.data == lowerChars b.data

/-! ## AssetSelector (`pick_asset`, `asset_score`, token tables, filters) -/

/-- A release asset (`struct Asset` in `lib.rs`). -/
structure Asset where
  name : String
  browser_download_url : String
deriving DecidableEq, Repr

/-- The two selector failure modes of `pick_asset`:
`noAssets` is `bail!("release has no assets")`, `noSuitableAsset` is the
final `.context("no suitable assets")`. -/
inductive PickError where
  | noAssets
  | noSuitableAsset
deriving DecidableEq, Repr

/-- `contains_any` from `lib.rs`: any token occurs in the haystack. -/
def contains_any (haystack : List Char) (tokens : List String) : Bool :=
  tokens.any (fun token => rustContains haystack token.data)

/-- `os_tokens` from `lib.rs`, with the host `env::consts::OS` string as
an explicit parameter (it is a compile-time constant in Rust). -/
def os_tokens (os : String) : List String :=
  if os = "macos" then ["darwin", "macos", "osx", "mac", "apple-darwin"]
  else if os = "linux" then ["linux", "gnu", "unknown-linux"]
  else if os = "windows" then ["windows", "win", "mingw", "msvc"]
  else [os]

/-- `arch_tokens` from `lib.rs`, with `env::consts::ARCH` as a parameter. -/
def arch_tokens (arch : String) : List String :=
  if arch = "x86_64" then ["x86_64", "amd64", "x64"]
  else if arch = "aarch64" then ["aarch64", "arm64"]
  else if arch = "arm" then ["armv7", "armv7l", "armv6", "arm"]
  else [arch]

/-- `is_ignored_asset` from `lib.rs`: checksum / signature / sbom noise. -/
def is_ignored_asset (name : String) : Bool :=
  let lower := lowerChars name.data
  rustEndsWith lower ".sha256".data || rustEndsWith lower ".sha256sum".data
    || rustEndsWith lower ".sha512".data || rustEndsWith lower ".sig".data
    || rustEndsWith lower ".asc".data || rustEndsWith lower ".md5".data
    || rustContains lower "checksum".data || rustContains lower "checksums".data
    || rustContains lower "sbom".data

/-- `is_archive_name` from `lib.rs`. -/
def is_archive_name (name : List Char) : Bool :=
  let lower := lowerChars name
  rustEndsWith lower ".zip".data || rustEndsWith lower ".tar.gz".data
    || rustEndsWith lower ".tgz".data || rustEndsWith lower ".tar.xz".data
    || rustEndsWith lower ".tar.bz2".data

/-- `is_gzip_name` from `lib.rs`: a `.gz` that is not a `.tar.gz`. -/
def is_gzip_name (name : List Char) : Bool :=
  let lower := lowerChars name
  rustEndsWith lower ".gz".data && !rustEndsWith lower ".tar.gz".data

/-- `asset_score` from `lib.rs`: +2 OS token, +2 arch token, +1 archive
suffix, +1 `.exe` suffix, accumulated in sequence exactly as the source. -/
def asset_score (name : String) (osT archT : List String) : Int :=
  let lower := lowerChars name.data
  let score : Int := 0
  let score := if contains_any lower osT then score + 2 else score
  let score := if contains_any lower archT then score + 2 else score
  let score := if is_archive_name lower then score + 1 else score
  let score := if rustEndsWith lower ".exe".data then score + 1 else score
  score

/-- One step of the `for asset in candidates` loop of `pick_asset`: the
current best is replaced only when the new score is strictly greater. -/
def pick_step (osT archT : List String) (best : Option (Asset × Int)) (asset : Asset) :
    Option (Asset × Int) :=
  let score := asset_score asset.name osT archT
  match best with
  | none => some (asset, score)
  | some (b, bestScore) => if score > bestScore then some (asset, score) else some (b, bestScore)

/-- The candidate list of `pick_asset`: noise assets filtered out, with
fallback to the unfiltered list when the filter removes everything. -/
def pick_candidates (assets : List Asset) : List Asset :=
  let candidates := assets.filter (fun asset => !is_ignored_asset asset.name)
  if candidates.isEmpty then assets else candidates

/-- `pick_asset` from `lib.rs`. -/
def pick_asset (os arch : String) (assets : List Asset) : Except PickError Asset :=
  if assets.isEmpty then .error .noAssets
  else
    let osT := os_tokens os
    let archT := arch_tokens arch
    let best := (pick_candidates assets).foldl (pick_step osT archT) none
    match best with
    | some (asset, _) => .ok asset
    | none => .error .noSuitableAsset

/-- An asset name containing both a host OS token and a host arch token
(the "matches both" notion used by the selection claims). -/
def matches_both (os arch : String) (a : Asset) : Bool :=
  contains_any (lowerChars a.name.data) (os_tokens os)
    && contains_any (lowerChars a.name.data) (arch_tokens arch)

/-- Reference recursion for the strict-replacement fold: starting from a
current best `b`, scan `l` replacing the best only on a strictly greater
score. -/
def bestFold (f : Asset → Int) (b : Asset) : List Asset → Asset
  | [] => b
  | a :: rest => if f a > f b then bestFold f a rest else bestFold f b rest

/-! ## ArchiveExtractor: plain-gzip naming (`extract_gzip`) -/

/-- Fuel-indexed core of Rust `str::trim_end_matches(pat)`: repeatedly
removes the suffix `pat` (case-sensitively) while it is present.  The
fuel only bounds the number of removals; `s.length` removals always
suffice. -/
def stripSuffixRepeat (pat : List Char) : Nat → List Char → List Char
  | 0, s => s
  | fuel + 1, s =>
    if !pat.isEmpty && pat.isSuffixOf s then
      stripSuffixRepeat pat fuel (s.take (s.length - pat.length))
    else s

/-- Rust `str::trim_end_matches`. -/
def trim_end_matches (s pat : String) : String :=
  String.mk (stripSuffixRepeat pat.data s.data.length s.data)

/-- `k` copies of `pat` concatenated (used to state what
`trim_end_matches` removed). -/
def suffixRepeat (pat : List Char) : Nat → List Char
  | 0 => []
  | k + 1 => suffixRepeat pat k ++ pat

/-- The name of the single decompressed file produced by `extract_gzip`:
`filename.trim_end_matches(".gz")` in `lib.rs`. -/
def gzip_dest_name (filename : String) : String := trim_end_matches filename ".gz"

/-- The files `extract_gzip` creates in its scratch directory: exactly
one `io::copy` of the decoder output, at the `gzip_dest_name`. -/
def extract_gzip_files (filename : String) : List String := [gzip_dest_name filename]

/-! ## BinaryLocator (`find_binaries` and friends)

A filesystem path is a list of components; the walked tree is the list
of regular-file paths in walk order. -/

/-- The characters of a path as rendered by `to_string_lossy`:
components joined with `/`. -/
def pathChars : List String → List Char
  | [] => []
  | [x] => x.data
  | x :: rest => x.data ++ '/' :: pathChars rest

/-- `path.to_string_lossy().len()`, the sort key of `find_binaries`. -/
def pathLen (p : List String) : Nat := (pathChars p).length

/-- Path comparison by rendered length (the `sort_by_key` order). -/
def lenLE (a b : List String) : Prop := pathLen a ≤ pathLen b

instance : DecidableRel lenLE := fun a b => inferInstanceAs (Decidable (pathLen a ≤ pathLen b))

instance : IsTotal (List String) lenLE := ⟨fun a b => Nat.le_total (pathLen a) (pathLen b)⟩

instance : IsTrans (List String) lenLE := ⟨fun _ _ _ h h2 => Nat.le_trans h h2⟩

/-- Rust `sort_by_key(|path| path.to_string_lossy().len())`, modelled by
a sort that is sorted by `lenLE` and a permutation of its input (the
claims depend only on those two properties of the stable sort). -/
def sortByLen (l : List (List String)) : List (List String) := List.insertionSort lenLE l

/-- `binary_name` from `lib.rs` (`cfg!(windows)` as a parameter). -/
def binary_name (windows : Bool) (rn : String) : String :=
  if windows then rn ++ ".exe" else rn

/-- `path.file_name().and_then(OsStr::to_str).unwrap_or("")`. -/
def fileNameOf (p : List String) : String := (p.getLast?).getD ""

/-- The `exact_matches` collected by the walk loop of `find_binaries`:
files whose lower-cased name equals the platform binary name or the
repo name. -/
def exactMatches (windows : Bool) (rn : String) (files : List (List String)) :
    List (List String) :=
  let target := lowerChars (binary_name windows rn).data
  let fallback := lowerChars rn.data
  files.filter (fun p =>
    lowerChars (fileNameOf p).data == target || lowerChars (fileNameOf p).data == fallback)

/-- Rust `Path::extension` on a bare file name: the portion after the
last `.`, none when there is no `.` or the only `.` is leading. -/
def rustExtension (s : List Char) : Option (List Char) :=
  let extRev := s.reverse.takeWhile (fun c => c != '.')
  if extRev.length = s.length then none
  else if extRev.length + 1 = s.length then none
  else some extRev.reverse

/-- `path_has_component` from `lib.rs`. -/
def path_has_component (p : List String) (needle : String) : Bool :=
  p.any (fun seg => eq_ignore_ascii_case seg needle)

/-- The documentation / metadata / checksum extension set of
`is_probable_binary_candidate`. -/
def doc_extensions : List String :=
  ["md", "txt", "rst", "json", "yaml", "yml", "toml", "ini", "cfg", "conf",
   "1", "2", "3", "4", "5", "6", "7", "8", "9",
   "asc", "sig", "sha256", "sha512", "md5"]

/-- `is_probable_binary_candidate` from `lib.rs`. -/
def is_probable_binary_candidate (p : List String) : Bool :=
  match p.getLast? with
  | none => false
  | some nm =>
    let name := lowerChars nm.data
    if rustStartsWith name ".".data || rustStartsWith name "readme".data
        || rustStartsWith name "license".data || rustStartsWith name "changelog".data
        || rustStartsWith name "notice".data || rustStartsWith name "copying".data then
      false
    else if path_has_component p "share" || path_has_component p "doc"
        || path_has_component p "docs" || path_has_component p "man"
        || path_has_component p "completions" || path_has_component p "completion" then
      false
    else
      match rustExtension name with
      | some ext => !(doc_extensions.any (fun e => e.data == lowerChars ext))
      | none => true

/-- The `probable_matches` collected by the walk loop. -/
def probableMatches (files : List (List String)) : List (List String) :=
  files.filter is_probable_binary_candidate

/-- The `bin_matches` narrowing of the multi-probable branch. -/
def binMatches (files : List (List String)) : List (List String) :=
  (probableMatches files).filter (fun p => path_has_component p "bin")

/-- The primary-selection cascade of `find_binaries`: a unique exact
match, else the shortest of several exact matches, else a unique
probable match, else a unique `bin`-component probable match, else the
shortest probable match, else the sole file of the tree, else failure. -/
def find_primary (windows : Bool) (rn : String) (files : List (List String)) :
    Option (List String) :=
  match exactMatches windows rn files with
  | [e] => some e
  | _ :: _ :: _ => (sortByLen (exactMatches windows rn files)).head?
  | [] =>
    match probableMatches files with
    | [q] => some q
    | _ :: _ :: _ =>
      match binMatches files with
      | [b] => some b
      | _ => (sortByLen (probableMatches files)).head?
    | [] =>
      match files with
      | [c] => some c
      | _ => none

/-- `find_binaries` from `lib.rs`.  `files` is the list of regular files
of the walked tree in walk order (the `candidates` vector); `none`
models `bail!("unable to locate extracted binary")`.  The extras are
the probable matches other than the primary, sorted by path length. -/
def find_binaries (windows : Bool) (rn : String) (files : List (List String)) :
    Option (List String × List (List String)) :=
  match find_primary windows rn files with
  | none => none
  | some primary =>
    some (primary,
      sortByLen ((probableMatches files).filter (fun q => decide (q ≠ primary))))

/-! ## Install copy loop (`download_to_dir` / `install_with_version`) -/

/-- One iteration of the shared copy loop of `download_to_dir` and
`install_with_version`: an extra with no file name is skipped, an extra
whose destination `dest_dir/its-file-name` is already in the installed
list is silently skipped, otherwise its destination is appended.  The
loop starts from `[dest_dir/primary-name]`; a primary with no file
name is `bail!("downloaded binary has no filename")` (`none`). -/
def installStep (destDir : List String) (acc : List (List String))
    (extra : List String) : List (List String) :=
  match extra.getLast? with
  | none => acc
  | some n =>
    let extraDest := destDir ++ [n]
    if acc.contains extraDest then acc else acc ++ [extraDest]

/-- The full list of destination paths of the copy loop: the primary
first, then the surviving extras in order. -/
def download_to_dir_paths (destDir primaryPath : List String)
    (extraPaths : List (List String)) : Option (List (List String)) :=
  match primaryPath.getLast? with
  | none => none
  | some name => some (extraPaths.foldl (installStep destDir) [destDir ++ [name]])

/-! ## InstallLedger (`read_state_locked` / `write_state_locked`)

The ledger file content is a `String`.  `write_state_locked` models the
truncate-seek-write sequence: the returned string is the whole new file
content (the serde_json pretty document plus the trailing newline).
`read_state_locked` models seek-read-parse: whitespace-only content is
the empty mapping, otherwise the JSON document is parsed.  The JSON
values involved are only objects, arrays and strings, so the
serializer/parser below covers exactly that fragment, with serde's
string escaping (`"`, `\`, control characters) and serde's field
semantics for the two structs (`installs` defaulted, `bins` defaulted
and skipped when empty). -/

/-- `struct InstallEntry` from `lib.rs`. -/
structure InstallEntry where
  version : String
  bin : String
  bins : List String
deriving DecidableEq, Repr

/-- `InstallEntry::all_bins`: the primary followed by the extras. -/
def all_bins (e : InstallEntry) : List String := e.bin :: e.bins

/-- `struct InstallState` from `lib.rs`; the `BTreeMap` is an
association list in ascending key order. -/
structure InstallState where
  installs : List (String × InstallEntry)
deriving DecidableEq, Repr

/-- The `{` character (named to keep object syntax out of literals). -/
def lbrace : Char := Char.ofNat 123

/-- The `}` character. -/
def rbrace : Char := Char.ofNat 125

/-- JSON insignificant whitespace. -/
def isWsChar (c : Char) : Bool := c == ' ' || c == '\n' || c == '\t' || c == '\r'

/-- Skip insignificant whitespace. -/
def skipWs (s : List Char) : List Char := s.dropWhile isWsChar

/-- Lowercase hex digit for a value below 16. -/
def hexDigitChar (n : Nat) : Char :=
  if n = 0 then '0' else if n = 1 then '1' else if n = 2 then '2'
  else if n = 3 then '3' else if n = 4 then '4' else if n = 5 then '5'
  else if n = 6 then '6' else if n = 7 then '7' else if n = 8 then '8'
  else if n = 9 then '9' else if n = 10 then 'a' else if n = 11 then 'b'
  else if n = 12 then 'c' else if n = 13 then 'd' else if n = 14 then 'e'
  else 'f'

/-- Value of a hex digit. -/
def hexVal (c : Char) : Option Nat :=
  if c = '0' then some 0 else if c = '1' then some 1 else if c = '2' then some 2
  else if c = '3' then some 3 else if c = '4' then some 4 else if c = '5' then some 5
  else if c = '6' then some 6 else if c = '7' then some 7 else if c = '8' then some 8
  else if c = '9' then some 9 else if c = 'a' then some 10 else if c = 'b' then some 11
  else if c = 'c' then some 12 else if c = 'd' then some 13 else if c = 'e' then some 14
  else if c = 'f' then some 15 else if c = 'A' then some 10 else if c = 'B' then some 11
  else if c = 'C' then some 12 else if c = 'D' then some 13 else if c = 'E' then some 14
  else if c = 'F' then some 15 else none

/-- serde_json's escaping of one string character: `"`, `\` and the
control characters are escaped (`\b \t \n \f \r` short forms, `\u00xx`
otherwise); everything else is emitted as is. -/
def escChar (c : Char) : List Char :=
  if c = '"' then [ '\\', '"' ]
  else if c = '\\' then [ '\\', '\\' ]
  else if c = Char.ofNat 8 then [ '\\', 'b' ]
  else if c = Char.ofNat 9 then [ '\\', 't' ]
  else if c = Char.ofNat 10 then [ '\\', 'n' ]
  else if c = Char.ofNat 12 then [ '\\', 'f' ]
  else if c = Char.ofNat 13 then [ '\\', 'r' ]
  else if c.toNat < 32 then
    [ '\\', 'u', '0', '0', hexDigitChar (c.toNat / 16), hexDigitChar (c.toNat % 16) ]
  else [c]

/-- Escape a whole string body. -/
def escString : List Char → List Char
  | [] => []
  | c :: rest => escChar c ++ escString rest

/-- Render a JSON string literal. -/
def renderString (s : String) : List Char := '"' :: (escString s.data ++ [ '"' ])

/-- `n` spaces (pretty-printer indentation). -/
def indentChars (n : Nat) : List Char := List.replicate n ' '

/-- Second and later items of a pretty-printed string array, with the
item indentation `ind`. -/
def renderStrArrayTail (ind : Nat) : List String → List Char
  | [] => []
  | y :: rest =>
    ',' :: '\n' :: (indentChars ind ++ renderString y ++ renderStrArrayTail ind rest)

/-- A pretty-printed JSON array of strings at indentation `ind`. -/
def renderStrArray (ind : Nat) (xs : List String) : List Char :=
  match xs with
  | [] => [ '[', ']' ]
  | x :: rest =>
    '[' :: '\n' :: (indentChars (ind + 2) ++ renderString x
      ++ renderStrArrayTail (ind + 2) rest ++ '\n' :: (indentChars ind ++ [ ']' ]))

/-- A pretty-printed `InstallEntry` object at indentation `ind`:
fields `version`, `bin` and — only when non-empty
(`skip_serializing_if = "Vec::is_empty"`) — `bins`. -/
def renderEntry (ind : Nat) (e : InstallEntry) : List Char :=
  lbrace :: '\n' :: (indentChars (ind + 2) ++ renderString "version" ++ ':' :: ' ' ::
    (renderString e.version
      ++ ',' :: '\n' :: (indentChars (ind + 2) ++ renderString "bin" ++ ':' :: ' ' ::
        (renderString e.bin
          ++ (if e.bins.isEmpty then [] else
              ',' :: '\n' :: (indentChars (ind + 2) ++ renderString "bins" ++ ':' :: ' ' ::
                renderStrArray (ind + 2) e.bins))
          ++ '\n' :: (indentChars ind ++ [rbrace])))))

/-- Second and later entries of the `installs` object. -/
def renderInstallsTail (ind : Nat) : List (String × InstallEntry) → List Char
  | [] => []
  | (k, e) :: rest =>
    ',' :: '\n' :: (indentChars ind ++ renderString k ++ ':' :: ' ' ::
      (renderEntry ind e ++ renderInstallsTail ind rest))

/-- The pretty-printed `installs` map object at indentation `ind`
(keys in list order, i.e. ascending `BTreeMap` order). -/
def renderInstalls (ind : Nat) (l : List (String × InstallEntry)) : List Char :=
  match l with
  | [] => [lbrace, rbrace]
  | (k, e) :: rest =>
    lbrace :: '\n' :: (indentChars (ind + 2) ++ renderString k ++ ':' :: ' ' ::
      (renderEntry (ind + 2) e ++ renderInstallsTail (ind + 2) rest
        ++ '\n' :: (indentChars ind ++ [rbrace])))

/-- The whole pretty-printed `InstallState` document. -/
def renderState (s : InstallState) : List Char :=
  lbrace :: '\n' :: (indentChars 2 ++ renderString "installs" ++ ':' :: ' ' ::
    (renderInstalls 2 s.installs ++ '\n' :: [rbrace]))

/-- `write_state_locked` from `lib.rs`: truncate, seek to start, write
the pretty JSON document and a trailing newline.  The result is the new
file content. -/
def write_state_locked (s : InstallState) : String :=
  String.mk (renderState s ++ [ '\n' ])

/-- Decode one escape sequence after a backslash: the JSON short
escapes and `\uXXXX` (surrogates rejected). -/
def parseEscapeChar (input : List Char) : Option (Char × List Char) :=
  match input with
  | [] => none
  | e :: rest =>
    if e = '"' then some ( '"', rest)
    else if e = '\\' then some ( '\\', rest)
    else if e = '/' then some ( '/', rest)
    else if e = 'b' then some (Char.ofNat 8, rest)
    else if e = 't' then some (Char.ofNat 9, rest)
    else if e = 'n' then some (Char.ofNat 10, rest)
    else if e = 'f' then some (Char.ofNat 12, rest)
    else if e = 'r' then some (Char.ofNat 13, rest)
    else if e = 'u' then
      match rest with
      | h1 :: h2 :: h3 :: h4 :: rest3 =>
        match hexVal h1, hexVal h2, hexVal h3, hexVal h4 with
        | some a, some b, some c3, some d =>
          let n := ((a * 16 + b) * 16 + c3) * 16 + d
          if n < 55296 then some (Char.ofNat n, rest3) else none
        | _, _, _, _ => none
      | _ => none
    else none

/-- Parse a JSON string body after the opening quote, decoding escapes;
fails on raw control characters, bad escapes, or a missing closing
quote.  The fuel bounds the number of produced characters; the input
length is always enough. -/
def parseStringBody (fuel : Nat) (input : List Char) : Option (List Char × List Char) :=
  match fuel with
  | 0 => none
  | fuel + 1 =>
    match input with
    | [] => none
    | c :: rest =>
      if c = '"' then some ([], rest)
      else if c = '\\' then
        match parseEscapeChar rest with
        | none => none
        | some (ch, rest2) =>
          (parseStringBody fuel rest2).map (fun pr => (ch :: pr.1, pr.2))
      else if c.toNat < 32 then none
      else (parseStringBody fuel rest).map (fun pr => (c :: pr.1, pr.2))

/-- Parse a JSON string literal (no leading whitespace skipping). -/
def parseJString (input : List Char) : Option (String × List Char) :=
  match input with
  | [] => none
  | c :: rest =>
    if c = '"' then (parseStringBody rest.length rest).map (fun pr => (String.mk pr.1, pr.2))
    else none

/-- Parse the rest of a string array after one item: `, item ... ]`. -/
def parseStrArrayItems (fuel : Nat) (input : List Char) :
    Option (List String × List Char) :=
  match fuel with
  | 0 => none
  | fuel + 1 =>
    match skipWs input with
    | [] => none
    | c :: rest =>
      if c = ']' then some ([], rest)
      else if c = ',' then
        match parseJString (skipWs rest) with
        | none => none
        | some (s, r) =>
          (parseStrArrayItems fuel r).map (fun pr => (s :: pr.1, pr.2))
      else none

/-- Parse a JSON array of strings. -/
def parseStrArray (fuel : Nat) (input : List Char) :
    Option (List String × List Char) :=
  match input with
  | [] => none
  | c :: rest =>
    if c = '[' then
      match skipWs rest with
      | [] => none
      | c2 :: rest2 =>
        if c2 = ']' then some ([], rest2)
        else
          match parseJString (c2 :: rest2) with
          | none => none
          | some (s, r) =>
            (parseStrArrayItems fuel r).map (fun pr => (s :: pr.1, pr.2))
    else none

/-- Parse one `"key": value` field of an `InstallEntry` object into the
accumulated optional fields; duplicate fields are an error, the three
known field names take string / string / string-array values. -/
def parseEntryField (fuel : Nat) (fields : Option String × Option String × Option (List String))
    (input : List Char) :
    Option ((Option String × Option String × Option (List String)) × List Char) :=
  match parseJString input with
  | none => none
  | some (key, r) =>
    match skipWs r with
    | [] => none
    | c :: r2 =>
      if c = ':' then
        let v := skipWs r2
        if key = "version" then
          match fields.1 with
          | some _ => none
          | none => (parseJString v).map (fun pr => ((some pr.1, fields.2.1, fields.2.2), pr.2))
        else if key = "bin" then
          match fields.2.1 with
          | some _ => none
          | none => (parseJString v).map (fun pr => ((fields.1, some pr.1, fields.2.2), pr.2))
        else if key = "bins" then
          match fields.2.2 with
          | some _ => none
          | none => (parseStrArray fuel v).map (fun pr => ((fields.1, fields.2.1, some pr.1), pr.2))
        else none
      else none

/-- Parse the remaining fields of an `InstallEntry` object and finish
it: `version` and `bin` are required, `bins` defaults to `[]`
(`#[serde(default)]`). -/
def parseEntryFields (fuel : Nat)
    (fields : Option String × Option String × Option (List String))
    (input : List Char) : Option (InstallEntry × List Char) :=
  match fuel with
  | 0 => none
  | fuel + 1 =>
    match skipWs input with
    | [] => none
    | c :: rest =>
      if c = rbrace then
        match fields with
        | (some v, some b, bs) => some (⟨v, b, bs.getD []⟩, rest)
        | _ => none
      else if c = ',' then
        match parseEntryField fuel fields (skipWs rest) with
        | none => none
        | some (fields2, r) => parseEntryFields fuel fields2 r
      else none

/-- Parse an `InstallEntry` object (an empty object is rejected because
`version` and `bin` are required fields). -/
def parseEntry (fuel : Nat) (input : List Char) : Option (InstallEntry × List Char) :=
  match input with
  | [] => none
  | c :: rest =>
    if c = lbrace then
      match parseEntryField fuel (none, none, none) (skipWs rest) with
      | none => none
      | some (fields, r) => parseEntryFields fuel fields r
    else none

/-- Parse one `"key": entry` item of the `installs` object. -/
def parseInstallsItem (fuel : Nat) (input : List Char) :
    Option ((String × InstallEntry) × List Char) :=
  match parseJString input with
  | none => none
  | some (k, r) =>
    match skipWs r with
    | [] => none
    | c :: r2 =>
      if c = ':' then
        (parseEntry fuel (skipWs r2)).map (fun pr => ((k, pr.1), pr.2))
      else none

/-- Parse the remaining items of the `installs` object. -/
def parseInstallsItems (fuel : Nat) (input : List Char) :
    Option (List (String × InstallEntry) × List Char) :=
  match fuel with
  | 0 => none
  | fuel + 1 =>
    match skipWs input with
    | [] => none
    | c :: rest =>
      if c = rbrace then some ([], rest)
      else if c = ',' then
        match parseInstallsItem fuel (skipWs rest) with
        | none => none
        | some (kv, r) =>
          (parseInstallsItems fuel r).map (fun pr => (kv :: pr.1, pr.2))
      else none

/-- Parse the `installs` map object. -/
def parseInstalls (fuel : Nat) (input : List Char) :
    Option (List (String × InstallEntry) × List Char) :=
  match input with
  | [] => none
  | c :: rest =>
    if c = lbrace then
      match skipWs rest with
      | [] => none
      | c2 :: rest2 =>
        if c2 = rbrace then some ([], rest2)
        else
          match parseInstallsItem fuel (c2 :: rest2) with
          | none => none
          | some (kv, r) =>
            (parseInstallsItems fuel r).map (fun pr => (kv :: pr.1, pr.2))
    else none

/-- Parse the whole `InstallState` document: an object that is either
empty (the `installs` field is `#[serde(default)]`) or holds the single
`installs` field. -/
def parseState (fuel : Nat) (input : List Char) : Option (InstallState × List Char) :=
  match skipWs input with
  | [] => none
  | c :: rest =>
    if c = lbrace then
      match skipWs rest with
      | [] => none
      | c2 :: rest2 =>
        if c2 = rbrace then some (⟨[]⟩, rest2)
        else
          match parseJString (c2 :: rest2) with
          | none => none
          | some (key, r) =>
            if key = "installs" then
              match skipWs r with
              | [] => none
              | c3 :: r2 =>
                if c3 = ':' then
                  match parseInstalls fuel (skipWs r2) with
                  | none => none
                  | some (installs, r3) =>
                    match skipWs r3 with
                    | [] => none
                    | c4 :: r4 => if c4 = rbrace then some (⟨installs⟩, r4) else none
                else none
            else none
    else none

/-- Rust `str::trim` (whitespace at both ends). -/
def rustTrim (s : List Char) : List Char :=
  ((s.dropWhile isWsChar).reverse.dropWhile isWsChar).reverse

/-- `read_state_locked` from `lib.rs`: whitespace-only content is the
default (empty) state, otherwise the JSON document is parsed
(`serde_json::from_str`, which permits trailing whitespace only). -/
def read_state_locked (buf : String) : Option InstallState :=
  if (rustTrim buf.data).isEmpty then some ⟨[]⟩
  else
    match parseState (buf.data.length + 1) buf.data with
    | some (s, rest) => if (skipWs rest).isEmpty then some s else none
    | none => none

/-! ## `remove_install` over a small world model

The world holds the ledger file content (`none` = the file does not
exist), the set of existing binary paths, and a fault set: paths whose
removal fails with a non-`NotFound` OS error.  Removing an absent path
is the swallowed `NotFound`; removing a present, non-faulty path
deletes it.  The advisory lock is held for the whole operation (single
mutator), so it is implicit in the sequential model. -/

/-- World state for the ledger operations. -/
structure World where
  ledger : Option String
  fs : List String
  failing : List String
deriving DecidableEq, Repr

/-- The failure modes of `remove_install`. -/
inductive RemoveError where
  | noInstalls
  | parseError
  | entryMissing
  | fsError (path : String)
deriving DecidableEq, Repr

/-- The file-deletion loop of `remove_install` over `all_bins`:
`NotFound` (path absent) is swallowed, a faulty path aborts with that
path, otherwise the path is deleted.  Returns the filesystem after the
performed deletions and the first hard error, if any. -/
def removeBins (failing : List String) : List String → List String → List String × Option String
  | [], fs => (fs, none)
  | b :: rest, fs =>
    if fs.contains b then
      if failing.contains b then (fs, some b)
      else removeBins failing rest (fs.filter (fun q => decide (q ≠ b)))
    else removeBins failing rest fs

/-- `BTreeMap::remove`-style lookup on the installs list. -/
def installsLookup (repo : String) : List (String × InstallEntry) → Option InstallEntry
  | [] => none
  | (k, e) :: rest => if k = repo then some e else installsLookup repo rest

/-- `remove_install` from `lib.rs`: missing state file is
`"no installs recorded"`; the state is read under the exclusive lock;
a missing entry is `"<repo> not installed"`; the entry's recorded
paths are deleted (swallowing `NotFound`); a hard deletion error
returns before the rewrite, leaving the ledger file unchanged; on
success the state without the entry is written back. -/
def remove_install (repo : String) (w : World) : World × Option RemoveError :=
  match w.ledger with
  | none => (w, some .noInstalls)
  | some content =>
    match read_state_locked content with
    | none => (w, some .parseError)
    | some state =>
      match installsLookup repo state.installs with
      | none => (w, some .entryMissing)
      | some entry =>
        let remaining := state.installs.filter (fun kv => decide (kv.1 ≠ repo))
        match removeBins w.failing (all_bins entry) w.fs with
        | (fs2, some p) => ({ w with fs := fs2 }, some (.fsError p))
        | (fs2, none) =>
          ({ ledger := some (write_state_locked ⟨remaining⟩), fs := fs2,
             failing := w.failing }, none)

/-! ## Theorems: AssetSelector -/

/-- The selection loop from a current best scans with strict
replacement, i.e. computes `bestFold`. -/
theorem foldl_pick_step_some (osT archT : List String) (l : List Asset) (b : Asset) :
    l.foldl (pick_step osT archT) (some (b, asset_score b.name osT archT)) =
      some (bestFold (fun x => asset_score x.name osT archT) b l,
        asset_score (bestFold (fun x => asset_score x.name osT archT) b l).name osT archT) := by
  induction l generalizing b with
  | nil => rfl
  | cons a rest ih =>
    simp only [List.foldl, pick_step]
    by_cases h : asset_score a.name osT archT > asset_score b.name osT archT
    · rw [if_pos h, ih a, bestFold, if_pos h]
    · rw [if_neg h, ih b, bestFold, if_neg h]

/-- `bestFold` returns the first maximum of `b :: l`: everything before
it scores strictly less, everything after it scores at most as much. -/
theorem bestFold_spec (f : Asset → Int) (b : Asset) (l : List Asset) :
    ∃ pre post, b :: l = pre ++ bestFold f b l :: post ∧
      (∀ x ∈ pre, f x < f (bestFold f b l)) ∧
      (∀ x ∈ post, f x ≤ f (bestFold f b l)) := by
  induction l generalizing b with
  | nil => exact ⟨[], [], rfl, by simp, by simp⟩
  | cons a rest ih =>
    by_cases h : f a > f b
    · obtain ⟨pre, post, heq, hpre, hpost⟩ := ih a
      rw [bestFold, if_pos h]
      have hle : f a ≤ f (bestFold f a rest) := by
        match pre, heq with
        | [], heq =>
          obtain ⟨h1, _⟩ := List.cons.inj heq
          rw [← h1]
        | p :: pre2, heq =>
          obtain ⟨h1, _⟩ := List.cons.inj heq
          have hp := hpre p (List.mem_cons_self p pre2)
          rw [← h1] at hp
          exact le_of_lt hp
      refine ⟨b :: pre, post, by rw [List.cons_append, ← heq], ?_, hpost⟩
      intro x hx
      rcases List.mem_cons.mp hx with rfl | hx
      · exact lt_of_lt_of_le h hle
      · exact hpre x hx
    · obtain ⟨pre, post, heq, hpre, hpost⟩ := ih b
      rw [bestFold, if_neg h]
      match pre, heq with
      | [], heq =>
        obtain ⟨h1, h2⟩ := List.cons.inj heq
        refine ⟨[], a :: rest, by rw [List.nil_append, ← h1], by simp, ?_⟩
        intro x hx
        rcases List.mem_cons.mp hx with rfl | hx
        · rw [← h1]; exact le_of_not_lt h
        · rw [h2] at hx; exact hpost x hx
      | p :: pre2, heq =>
        obtain ⟨h1, h2⟩ := List.cons.inj heq
        have hbm : f b < f (bestFold f b rest) := h1 ▸ hpre p (List.mem_cons_self p pre2)
        refine ⟨b :: a :: pre2, post, ?_, ?_, hpost⟩
        · simp only [List.append_eq] at h2
          rw [List.cons_append, List.cons_append, ← h2]
        · intro x hx
          rcases List.mem_cons.mp hx with rfl | hx
          · exact hbm
          rcases List.mem_cons.mp hx with rfl | hx
          · exact lt_of_le_of_lt (le_of_not_lt h) hbm
          · exact hpre x (List.mem_cons_of_mem p hx)

/-- The candidate list is non-empty whenever the asset list is. -/
theorem pick_candidates_ne_nil (assets : List Asset) (h : assets ≠ []) :
    pick_candidates assets ≠ [] := by
  simp only [pick_candidates]
  split
  · exact h
  · next hne => simpa [List.isEmpty_iff] using hne

/-- Candidates come from the asset list. -/
theorem pick_candidates_sub {assets : List Asset} {a : Asset}
    (h : a ∈ pick_candidates assets) : a ∈ assets := by
  simp only [pick_candidates] at h
  split at h
  · exact h
  · exact (List.mem_filter.mp h).1

/-- `pick_asset` on a non-empty list succeeds with the first candidate
of maximal score: candidates before it score strictly less, candidates
after it score at most as much. -/
theorem pick_asset_spec (os arch : String) (assets : List Asset) (h : assets ≠ []) :
    ∃ a pre post, pick_asset os arch assets = .ok a ∧
      pick_candidates assets = pre ++ a :: post ∧
      (∀ b ∈ pre, asset_score b.name (os_tokens os) (arch_tokens arch) <
        asset_score a.name (os_tokens os) (arch_tokens arch)) ∧
      (∀ b ∈ post, asset_score b.name (os_tokens os) (arch_tokens arch) ≤
        asset_score a.name (os_tokens os) (arch_tokens arch)) := by
  obtain ⟨c, l, hcl⟩ : ∃ c l, pick_candidates assets = c :: l := by
    rcases hcand : pick_candidates assets with _ | ⟨c, l⟩
    · exact absurd hcand (pick_candidates_ne_nil assets h)
    · exact ⟨c, l, rfl⟩
  have hfold : List.foldl (pick_step (os_tokens os) (arch_tokens arch)) none (c :: l) =
      some (bestFold (fun x => asset_score x.name (os_tokens os) (arch_tokens arch)) c l,
        asset_score (bestFold (fun x => asset_score x.name (os_tokens os) (arch_tokens arch))
          c l).name (os_tokens os) (arch_tokens arch)) := by
    have h0 : List.foldl (pick_step (os_tokens os) (arch_tokens arch)) none (c :: l) =
        List.foldl (pick_step (os_tokens os) (arch_tokens arch))
          (some (c, asset_score c.name (os_tokens os) (arch_tokens arch))) l := rfl
    rw [h0, foldl_pick_step_some]
  have hpa : pick_asset os arch assets =
      .ok (bestFold (fun x => asset_score x.name (os_tokens os) (arch_tokens arch)) c l) := by
    unfold pick_asset
    simp only [hcl]
    rw [if_neg (by simpa [List.isEmpty_iff] using h), hfold]
  obtain ⟨pre, post, heq, hpre, hpost⟩ :=
    bestFold_spec (fun x => asset_score x.name (os_tokens os) (arch_tokens arch)) c l
  exact ⟨_, pre, post, hpa, by rw [hcl, heq], hpre, hpost⟩

/-- `asset_score` as a closed sum of its four indicator summands. -/
theorem asset_score_eq (name : String) (osT archT : List String) :
    asset_score name osT archT =
      (if contains_any (lowerChars name.data) osT then (2 : Int) else 0) +
      (if contains_any (lowerChars name.data) archT then (2 : Int) else 0) +
      (if is_archive_name (lowerChars name.data) then (1 : Int) else 0) +
      (if rustEndsWith (lowerChars name.data) ".exe".data then (1 : Int) else 0) := by
  simp only [asset_score]
  split_ifs <;> omega

/-- A list suffix is preserved by character-wise lowering. -/
theorem suffix_map_lower {pat s : List Char} (h : pat.isSuffixOf s = true) :
    (lowerChars pat).isSuffixOf (lowerChars s) = true := by
  rw [List.isSuffixOf_iff_suffix] at h ⊢
  obtain ⟨t, ht⟩ := h
  exact ⟨lowerChars t, by rw [← ht]; simp [lowerChars]⟩

/-- No name can both have an archive suffix and end in `.exe`. -/
theorem archive_not_exe (lower : List Char)
    (h1 : is_archive_name lower = true)
    (h2 : rustEndsWith lower ".exe".data = true) : False := by
  have hexe : ".exe".data <:+ lowerChars lower := by
    have h3 := @suffix_map_lower ".exe".data lower h2
    rw [List.isSuffixOf_iff_suffix] at h3
    exact (by decide : lowerChars ".exe".data = ".exe".data) ▸ h3
  unfold is_archive_name at h1
  simp only [rustEndsWith, Bool.or_eq_true, List.isSuffixOf_iff_suffix] at h1
  rcases h1 with ((((harc | harc) | harc) | harc) | harc) <;>
    rcases List.suffix_or_suffix_of_suffix hexe harc with hcon | hcon <;>
    exact absurd hcon (by decide)

/-- The archive and `.exe` bonuses sum to at most one point. -/
theorem archive_exe_sum_le (lower : List Char) :
    (if is_archive_name lower then (1 : Int) else 0) +
      (if rustEndsWith lower ".exe".data then (1 : Int) else 0) ≤ 1 := by
  by_cases hA : is_archive_name lower = true
  · by_cases hE : rustEndsWith lower ".exe".data = true
    · exact (archive_not_exe lower hA hE).elim
    · rw [Bool.not_eq_true] at hE
      norm_num [hA, hE]
  · rw [Bool.not_eq_true] at hA
    simp only [hA, Bool.false_eq_true, if_false, zero_add]
    split_ifs <;> norm_num

/-- A both-token match is worth at least four points. -/
theorem matches_both_score_ge (os arch : String) (a : Asset)
    (h : matches_both os arch a = true) :
    4 ≤ asset_score a.name (os_tokens os) (arch_tokens arch) := by
  unfold matches_both at h
  rw [Bool.and_eq_true] at h
  rw [asset_score_eq]
  simp only [h.1, h.2, if_true]
  split_ifs <;> norm_num

/-- Without both tokens the score is at most three points. -/
theorem score_le_three (os arch : String) (a : Asset)
    (h : matches_both os arch a = false) :
    asset_score a.name (os_tokens os) (arch_tokens arch) ≤ 3 := by
  have hsum := archive_exe_sum_le (lowerChars a.name.data)
  unfold matches_both at h
  rw [asset_score_eq]
  by_cases h1 : contains_any (lowerChars a.name.data) (os_tokens os) = true
  · by_cases h2 : contains_any (lowerChars a.name.data) (arch_tokens arch) = true
    · rw [h1, h2] at h; exact absurd h (by decide)
    · rw [Bool.not_eq_true] at h2
      simp only [h1, h2, Bool.false_eq_true, if_true, if_false]
      linarith [hsum]
  · rw [Bool.not_eq_true] at h1
    simp only [h1, Bool.false_eq_true, if_false]
    by_cases h2 : contains_any (lowerChars a.name.data) (arch_tokens arch) = true
    · simp only [h2, if_true]
      linarith [hsum]
    · rw [Bool.not_eq_true] at h2
      simp only [h2, Bool.false_eq_true, if_false]
      linarith [hsum]

/-- Claim C1 counterexample: on a linux/x86_64 host, the asset list
`[a-linux-x86_64.sha256, b.zip]` contains an asset whose name matches
both an OS token and an arch token (the checksum file), yet `pick_asset`
selects `b.zip`, which matches neither — the noise filter removes the
both-matching asset before scoring, so the claim's unconditional
"selects the first highest-scoring both-matching asset" is false. -/
theorem C1_counterexample :
    matches_both "linux" "x86_64" (Asset.mk "a-linux-x86_64.sha256" "u") = true ∧
    matches_both "linux" "x86_64" (Asset.mk "b.zip" "u") = false ∧
    pick_asset "linux" "x86_64"
      [Asset.mk "a-linux-x86_64.sha256" "u", Asset.mk "b.zip" "u"] =
      Except.ok (Asset.mk "b.zip" "u") := by
  refine ⟨by decide, by decide, ?_⟩
  decide

/-- Claim C1 (amended): for every non-empty asset list, `pick_asset`
returns the first candidate (post noise-filter, original order
preserved) whose score is maximal — candidates before it score strictly
less (strict replacement), candidates after it at most as much; and if
any surviving candidate matches both a host OS token and a host arch
token, the selected asset is itself a both-matching asset (hence the
first highest-scoring such candidate). -/
theorem C1_first_max_selection (os arch : String) (assets : List Asset)
    (h : assets ≠ []) :
    ∃ a pre post, pick_asset os arch assets = .ok a ∧
      pick_candidates assets = pre ++ a :: post ∧
      (∀ b ∈ pre, asset_score b.name (os_tokens os) (arch_tokens arch) <
        asset_score a.name (os_tokens os) (arch_tokens arch)) ∧
      (∀ b ∈ post, asset_score b.name (os_tokens os) (arch_tokens arch) ≤
        asset_score a.name (os_tokens os) (arch_tokens arch)) ∧
      ((∃ b ∈ pick_candidates assets, matches_both os arch b = true) →
        matches_both os arch a = true) := by
  obtain ⟨a, pre, post, hok, heq, hpre, hpost⟩ := pick_asset_spec os arch assets h
  refine ⟨a, pre, post, hok, heq, hpre, hpost, ?_⟩
  rintro ⟨b, hbmem, hb⟩
  cases hm : matches_both os arch a with
  | true => rfl
  | false =>
    exfalso
    have hb4 := matches_both_score_ge os arch b hb
    have ha3 := score_le_three os arch a hm
    rw [heq] at hbmem
    rcases List.mem_append.mp hbmem with hbp | hbp
    · have := hpre b hbp
      linarith
    · rcases List.mem_cons.mp hbp with rfl | hbp
      · linarith
      · have := hpost b hbp
        linarith

/-- Witness for C1 (amended) at a concrete linux/x86_64 release. -/
theorem C1_first_max_selection_witness :
    ∃ a pre post,
      pick_asset "linux" "x86_64"
        [Asset.mk "x.zip" "u", Asset.mk "tool-linux-x86_64.tar.gz" "u"] = .ok a ∧
      pick_candidates [Asset.mk "x.zip" "u", Asset.mk "tool-linux-x86_64.tar.gz" "u"] =
        pre ++ a :: post ∧
      (∀ b ∈ pre, asset_score b.name (os_tokens "linux") (arch_tokens "x86_64") <
        asset_score a.name (os_tokens "linux") (arch_tokens "x86_64")) ∧
      (∀ b ∈ post, asset_score b.name (os_tokens "linux") (arch_tokens "x86_64") ≤
        asset_score a.name (os_tokens "linux") (arch_tokens "x86_64")) ∧
      ((∃ b ∈ pick_candidates [Asset.mk "x.zip" "u", Asset.mk "tool-linux-x86_64.tar.gz" "u"],
          matches_both "linux" "x86_64" b = true) →
        matches_both "linux" "x86_64" a = true) :=
  C1_first_max_selection "linux" "x86_64"
    [Asset.mk "x.zip" "u", Asset.mk "tool-linux-x86_64.tar.gz" "u"] (by decide)

/-- Claim C2: `pick_asset` fails with `NoAssets` exactly on the empty
list; on any non-empty list it succeeds and returns a member of the
input (so a list holding only checksum-named files still yields one of
them, by the filter fallback). -/
theorem C2_pick_asset_totality (os arch : String) (assets : List Asset) :
    (assets = [] → pick_asset os arch assets = .error .noAssets) ∧
    (assets ≠ [] → ∃ a, pick_asset os arch assets = .ok a ∧ a ∈ assets) := by
  constructor
  · rintro rfl
    rfl
  · intro h
    obtain ⟨a, pre, post, hok, heq, _, _⟩ := pick_asset_spec os arch assets h
    refine ⟨a, hok, pick_candidates_sub ?_⟩
    rw [heq]
    exact List.mem_append.mpr (Or.inr (List.mem_cons_self a post))

/-- Witness for C2: the empty list fails with `NoAssets`, and a list of
only checksum/signature files still yields an element of it. -/
theorem C2_pick_asset_totality_witness :
    pick_asset "linux" "x86_64" [] = .error .noAssets ∧
    (∃ a, pick_asset "linux" "x86_64" [Asset.mk "tool.sha256" "u", Asset.mk "tool.sig" "u"] =
      .ok a ∧ a ∈ [Asset.mk "tool.sha256" "u", Asset.mk "tool.sig" "u"]) :=
  ⟨(C2_pick_asset_totality "linux" "x86_64" []).1 rfl,
    (C2_pick_asset_totality "linux" "x86_64"
      [Asset.mk "tool.sha256" "u", Asset.mk "tool.sig" "u"]).2 (by decide)⟩

/-- Claim C3: the token tables are exactly as listed (with the
identifier itself for unknown hosts), `asset_score` is the sum of the
four indicators (+2 OS token, +2 arch token, +1 archive suffix,
+1 `.exe`), and the score always lies between 0 and 6. -/
theorem C3_asset_score_tables_and_bounds (name os arch : String) :
    os_tokens "macos" = ["darwin", "macos", "osx", "mac", "apple-darwin"] ∧
    os_tokens "linux" = ["linux", "gnu", "unknown-linux"] ∧
    os_tokens "windows" = ["windows", "win", "mingw", "msvc"] ∧
    (os ∉ (["macos", "linux", "windows"] : List String) → os_tokens os = [os]) ∧
    arch_tokens "x86_64" = ["x86_64", "amd64", "x64"] ∧
    arch_tokens "aarch64" = ["aarch64", "arm64"] ∧
    arch_tokens "arm" = ["armv7", "armv7l", "armv6", "arm"] ∧
    (arch ∉ (["x86_64", "aarch64", "arm"] : List String) → arch_tokens arch = [arch]) ∧
    asset_score name (os_tokens os) (arch_tokens arch) =
      (if contains_any (lowerChars name.data) (os_tokens os) then (2 : Int) else 0) +
      (if contains_any (lowerChars name.data) (arch_tokens arch) then (2 : Int) else 0) +
      (if is_archive_name (lowerChars name.data) then (1 : Int) else 0) +
      (if rustEndsWith (lowerChars name.data) ".exe".data then (1 : Int) else 0) ∧
    0 ≤ asset_score name (os_tokens os) (arch_tokens arch) ∧
    asset_score name (os_tokens os) (arch_tokens arch) ≤ 6 := by
  refine ⟨rfl, rfl, rfl, ?_, rfl, rfl, rfl, ?_, asset_score_eq name _ _, ?_, ?_⟩
  · intro hos
    simp only [List.mem_cons, List.not_mem_nil, or_false, not_or] at hos
    unfold os_tokens
    rw [if_neg hos.1, if_neg hos.2.1, if_neg hos.2.2]
  · intro harch
    simp only [List.mem_cons, List.not_mem_nil, or_false, not_or] at harch
    unfold arch_tokens
    rw [if_neg harch.1, if_neg harch.2.1, if_neg harch.2.2]
  · rw [asset_score_eq]
    split_ifs <;> norm_num
  · rw [asset_score_eq]
    split_ifs <;> norm_num

/-- Witness for C3 at a concrete unknown host and name. -/
theorem C3_asset_score_tables_and_bounds_witness :
    os_tokens "plan9" = ["plan9"] ∧ arch_tokens "mips" = ["mips"] ∧
    0 ≤ asset_score "tool-plan9.zip" (os_tokens "plan9") (arch_tokens "mips") ∧
    asset_score "tool-plan9.zip" (os_tokens "plan9") (arch_tokens "mips") ≤ 6 := by
  have h := C3_asset_score_tables_and_bounds "tool-plan9.zip" "plan9" "mips"
  exact ⟨h.2.2.2.1 (by decide), h.2.2.2.2.2.2.2.1 (by decide), h.2.2.2.2.2.2.2.2.2.1,
    h.2.2.2.2.2.2.2.2.2.2⟩


/-! ## Theorems: plain-gzip extraction naming -/

/-- `stripSuffixRepeat` with enough fuel removes some number of copies
of the (non-empty) pattern and leaves a result that no longer has the
pattern as a suffix. -/
theorem stripSuffixRepeat_spec (pat : List Char) (hpat : pat ≠ []) :
    ∀ fuel s, s.length ≤ fuel →
      (∃ k, s = stripSuffixRepeat pat fuel s ++ suffixRepeat pat k) ∧
      pat.isSuffixOf (stripSuffixRepeat pat fuel s) = false := by
  intro fuel
  induction fuel with
  | zero =>
    intro s hs
    have hnil : s = [] := List.length_eq_zero.mp (Nat.le_zero.mp hs)
    subst hnil
    have hfalse : pat.isSuffixOf ([] : List Char) = false := by
      cases hps : pat.isSuffixOf ([] : List Char)
      · rfl
      · rw [List.isSuffixOf_iff_suffix, List.suffix_nil] at hps
        exact absurd hps hpat
    exact ⟨⟨0, by simp [stripSuffixRepeat, suffixRepeat]⟩, by simpa [stripSuffixRepeat] using hfalse⟩
  | succ fuel ih =>
    intro s hs
    rw [stripSuffixRepeat]
    by_cases hcond : (!pat.isEmpty && pat.isSuffixOf s) = true
    · rw [if_pos hcond]
      have hsuf : pat.isSuffixOf s = true := (Bool.and_eq_true _ _ |>.mp hcond).2
      rw [List.isSuffixOf_iff_suffix] at hsuf
      obtain ⟨t, ht⟩ := hsuf
      have htake : s.take (s.length - pat.length) = t := by
        rw [← ht]
        have hlen2 : (t ++ pat).length - pat.length = t.length := by
          simp [List.length_append]
        rw [hlen2, List.take_left]
      rw [htake]
      have hlen : t.length ≤ fuel := by
        have hl := congrArg List.length ht
        simp only [List.length_append] at hl
        have hplen : 0 < pat.length := List.length_pos.mpr hpat
        omega
      obtain ⟨⟨k, hk⟩, hnos⟩ := ih t hlen
      refine ⟨⟨k + 1, ?_⟩, hnos⟩
      rw [suffixRepeat, ← List.append_assoc, ← hk, ht]
    · rw [if_neg hcond]
      rw [Bool.not_eq_true] at hcond
      have h1 : pat.isEmpty = false := by
        cases pat with
        | nil => exact absurd rfl hpat
        | cons c t => rfl
      simp only [h1, Bool.not_false, Bool.true_and] at hcond
      exact ⟨⟨0, by simp [suffixRepeat]⟩, hcond⟩

/-- Claim C4 counterexample: `file.gz.gz` is classified as a plain
gzip (case-insensitively ends in `.gz`, not in `.tar.gz`), but
`trim_end_matches(".gz")` strips BOTH trailing `.gz` occurrences, so
the decompressed file is named `file`, not `file.gz` as the claim's
"the `.gz` suffix stripped" requires. -/
theorem C4_counterexample :
    is_gzip_name "file.gz.gz".data = true ∧
    extract_gzip_files "file.gz.gz" = ["file"] ∧
    ("file" : String) ≠ "file.gz" := by
  refine ⟨by decide, by decide, by decide⟩

/-- Claim C4 (amended): for every downloaded file classified as plain
gzip, extraction produces exactly one decompressed file, whose name is
the original file name with all trailing literal `.gz` occurrences
removed (Rust `trim_end_matches` semantics: repeated and
case-sensitive); in particular the produced name never ends in `.gz`. -/
theorem C4_gzip_single_file (filename : String)
    (h : is_gzip_name filename.data = true) :
    extract_gzip_files filename = [gzip_dest_name filename] ∧
    (extract_gzip_files filename).length = 1 ∧
    (∃ k, filename.data = (gzip_dest_name filename).data ++ suffixRepeat ".gz".data k) ∧
    rustEndsWith (gzip_dest_name filename).data ".gz".data = false := by
  obtain ⟨⟨k, hk⟩, hnos⟩ :=
    stripSuffixRepeat_spec ".gz".data (by decide) filename.data.length filename.data le_rfl
  exact ⟨rfl, rfl, ⟨k, hk⟩, hnos⟩

/-- Witness for C4 (amended) at the ordinary single-suffix name. -/
theorem C4_gzip_single_file_witness :
    extract_gzip_files "tool.gz" = [gzip_dest_name "tool.gz"] ∧
    (extract_gzip_files "tool.gz").length = 1 ∧
    (∃ k, "tool.gz".data = (gzip_dest_name "tool.gz").data ++ suffixRepeat ".gz".data k) ∧
    rustEndsWith (gzip_dest_name "tool.gz").data ".gz".data = false :=
  C4_gzip_single_file "tool.gz" (by decide)


/-! ## Theorems: BinaryLocator -/

/-- The head of `sortByLen` on a non-empty list is a member of minimal
path length. -/
theorem sortByLen_head_min (l : List (List String)) (hne : l ≠ []) :
    ∃ m rest2, sortByLen l = m :: rest2 ∧ m ∈ l ∧
      ∀ x ∈ l, pathLen m ≤ pathLen x := by
  have hdef : sortByLen l = List.insertionSort lenLE l := rfl
  have hperm := List.perm_insertionSort lenLE l
  have hsorted := List.sorted_insertionSort lenLE l
  rcases hsort : sortByLen l with _ | ⟨m, rest2⟩
  · rw [hdef] at hsort
    rw [hsort] at hperm
    exact absurd hperm.symm.eq_nil hne
  · rw [hdef] at hsort
    rw [hsort] at hperm hsorted
    refine ⟨m, rest2, rfl, hperm.subset (List.mem_cons_self m rest2), ?_⟩
    intro x hx
    rcases List.mem_cons.mp (hperm.symm.subset hx) with rfl | hx2
    · exact le_refl _
    · exact List.rel_of_sorted_cons hsorted x hx2

/-- Claim C5: the primary-selection priority of `find_binaries`:
a unique exact match wins; among several exact matches a shortest-path
one wins; else a unique probable match wins; else a unique probable
match with a whole `bin` path component wins; else a shortest-path
probable match wins. -/
theorem C5_primary_priority (windows : Bool) (rn : String) (files : List (List String)) :
    (∀ e, exactMatches windows rn files = [e] →
      ∃ ex, find_binaries windows rn files = some (e, ex)) ∧
    (2 ≤ (exactMatches windows rn files).length →
      ∃ e ex, find_binaries windows rn files = some (e, ex) ∧
        e ∈ exactMatches windows rn files ∧
        ∀ q ∈ exactMatches windows rn files, pathLen e ≤ pathLen q) ∧
    (exactMatches windows rn files = [] → ∀ p, probableMatches files = [p] →
      ∃ ex, find_binaries windows rn files = some (p, ex)) ∧
    (exactMatches windows rn files = [] → 2 ≤ (probableMatches files).length →
      ∀ b, binMatches files = [b] →
      ∃ ex, find_binaries windows rn files = some (b, ex)) ∧
    (exactMatches windows rn files = [] → 2 ≤ (probableMatches files).length →
      (binMatches files).length ≠ 1 →
      ∃ e ex, find_binaries windows rn files = some (e, ex) ∧
        e ∈ probableMatches files ∧
        ∀ q ∈ probableMatches files, pathLen e ≤ pathLen q) := by
  refine ⟨?_, ?_, ?_, ?_, ?_⟩
  · intro e hex
    refine ⟨sortByLen ((probableMatches files).filter (fun q => decide (q ≠ e))), ?_⟩
    rw [find_binaries.eq_def, find_primary.eq_def, hex]
  · intro hlen
    obtain ⟨a, b, t, hx⟩ : ∃ a b t, exactMatches windows rn files = a :: b :: t := by
      rcases he : exactMatches windows rn files with _ | ⟨a, _ | ⟨b, t⟩⟩
      · rw [he] at hlen
        simp at hlen
      · rw [he] at hlen
        simp at hlen
      · exact ⟨a, b, t, rfl⟩
    obtain ⟨m, rest2, hsort, hmem, hmin⟩ :=
      sortByLen_head_min (exactMatches windows rn files) (by rw [hx]; simp)
    refine ⟨m, sortByLen ((probableMatches files).filter (fun q => decide (q ≠ m))),
      ?_, hmem, hmin⟩
    rw [hx] at hsort
    rw [find_binaries.eq_def, find_primary.eq_def, hx, hsort]
    rfl
  · intro hex p hpr
    refine ⟨sortByLen ((probableMatches files).filter (fun q => decide (q ≠ p))), ?_⟩
    rw [find_binaries.eq_def, find_primary.eq_def, hex, hpr]
  · intro hex hlen b hbin
    obtain ⟨a, a2, t, hx⟩ : ∃ a a2 t, probableMatches files = a :: a2 :: t := by
      rcases hp : probableMatches files with _ | ⟨a, _ | ⟨a2, t⟩⟩
      · rw [hp] at hlen
        simp at hlen
      · rw [hp] at hlen
        simp at hlen
      · exact ⟨a, a2, t, rfl⟩
    refine ⟨sortByLen ((probableMatches files).filter (fun q => decide (q ≠ b))), ?_⟩
    rw [find_binaries.eq_def, find_primary.eq_def, hex, hx, hbin]
  · intro hex hlen hbinlen
    obtain ⟨a, a2, t, hx⟩ : ∃ a a2 t, probableMatches files = a :: a2 :: t := by
      rcases hp : probableMatches files with _ | ⟨a, _ | ⟨a2, t⟩⟩
      · rw [hp] at hlen
        simp at hlen
      · rw [hp] at hlen
        simp at hlen
      · exact ⟨a, a2, t, rfl⟩
    obtain ⟨m, rest2, hsort, hmem, hmin⟩ :=
      sortByLen_head_min (probableMatches files) (by rw [hx]; simp)
    refine ⟨m, sortByLen ((probableMatches files).filter (fun q => decide (q ≠ m))),
      ?_, hmem, hmin⟩
    rw [hx] at hsort
    rcases hb : binMatches files with _ | ⟨b1, _ | ⟨b2, bt⟩⟩
    · rw [find_binaries.eq_def, find_primary.eq_def, hex, hx, hb, hsort]
      rfl
    · rw [hb] at hbinlen
      simp at hbinlen
    · rw [find_binaries.eq_def, find_primary.eq_def, hex, hx, hb, hsort]
      rfl

/-- Witness for C5: each of the five priority branches exercised on a
concrete extracted tree. -/
theorem C5_primary_priority_witness :
    (∃ ex, find_binaries false "tool" [["r", "tool"]] = some (["r", "tool"], ex)) ∧
    (∃ e ex, find_binaries false "tool" [["r", "a", "tool"], ["r", "tool"]] = some (e, ex) ∧
      e ∈ exactMatches false "tool" [["r", "a", "tool"], ["r", "tool"]] ∧
      ∀ q ∈ exactMatches false "tool" [["r", "a", "tool"], ["r", "tool"]],
        pathLen e ≤ pathLen q) ∧
    (∃ ex, find_binaries false "yoink" [["r", "bin", "run"]] = some (["r", "bin", "run"], ex)) ∧
    (∃ ex, find_binaries false "yoink" [["r", "bin", "run"], ["r", "alt", "tool"]] =
      some (["r", "bin", "run"], ex)) ∧
    (∃ e ex, find_binaries false "yoink" [["r", "a", "run"], ["r", "longer", "path", "tool"]] =
      some (e, ex) ∧
      e ∈ probableMatches [["r", "a", "run"], ["r", "longer", "path", "tool"]] ∧
      ∀ q ∈ probableMatches [["r", "a", "run"], ["r", "longer", "path", "tool"]],
        pathLen e ≤ pathLen q) :=
  ⟨(C5_primary_priority false "tool" [["r", "tool"]]).1 ["r", "tool"] (by decide),
    (C5_primary_priority false "tool" [["r", "a", "tool"], ["r", "tool"]]).2.1 (by decide),
    (C5_primary_priority false "yoink" [["r", "bin", "run"]]).2.2.1 (by decide)
      ["r", "bin", "run"] (by decide),
    (C5_primary_priority false "yoink" [["r", "bin", "run"], ["r", "alt", "tool"]]).2.2.2.1
      (by decide) (by decide) ["r", "bin", "run"] (by decide),
    (C5_primary_priority false "yoink"
      [["r", "a", "run"], ["r", "longer", "path", "tool"]]).2.2.2.2
      (by decide) (by decide) (by decide)⟩

/-- Claim C6: on every successful `find_binaries`, the extras are
exactly the probable matches other than the primary, sorted by path
length ascending, and the primary never appears among them. -/
theorem C6_extras (windows : Bool) (rn : String) (files : List (List String))
    (p : List String) (ex : List (List String))
    (h : find_binaries windows rn files = some (p, ex)) :
    p ∉ ex ∧ (∀ q, q ∈ ex ↔ (q ∈ probableMatches files ∧ q ≠ p)) ∧
      ex.Pairwise lenLE := by
  rw [find_binaries] at h
  rcases hq : find_primary windows rn files with _ | primary
  · rw [hq] at h
    exact absurd h (by simp)
  · rw [hq] at h
    simp only [Option.some.injEq, Prod.mk.injEq] at h
    obtain ⟨h1, h2⟩ := h
    rw [← h1, ← h2]
    have hmemiff : ∀ q, q ∈ sortByLen ((probableMatches files).filter
        (fun q => decide (q ≠ primary))) ↔ (q ∈ probableMatches files ∧ q ≠ primary) := by
      intro q
      have hdef : sortByLen ((probableMatches files).filter (fun q => decide (q ≠ primary))) =
          List.insertionSort lenLE ((probableMatches files).filter
            (fun q => decide (q ≠ primary))) := rfl
      rw [hdef, (List.perm_insertionSort lenLE _).mem_iff, List.mem_filter]
      simp
    refine ⟨fun hp => (hmemiff primary |>.mp hp).2 rfl, hmemiff, ?_⟩
    exact List.sorted_insertionSort lenLE _

/-- Witness for C6 on a concrete tree with an exact primary and two
probable extras. -/
theorem C6_extras_witness :
    ["r", "tool"] ∉ [["r", "bin", "tool"], ["r", "bin", "helper"]] ∧
    (∀ q, q ∈ [["r", "bin", "tool"], ["r", "bin", "helper"]] ↔
      (q ∈ probableMatches
          [["r", "tool"], ["r", "bin", "tool"], ["r", "bin", "helper"],
            ["r", "docs", "readme.md"]] ∧ q ≠ ["r", "tool"])) ∧
    List.Pairwise lenLE [["r", "bin", "tool"], ["r", "bin", "helper"]] :=
  C6_extras false "tool"
    [["r", "tool"], ["r", "bin", "tool"], ["r", "bin", "helper"], ["r", "docs", "readme.md"]]
    ["r", "tool"] [["r", "bin", "tool"], ["r", "bin", "helper"]] (by decide)

/-- Claim C7: with no exact and no probable matches, `find_binaries`
returns the sole file of the tree as primary with no extras exactly
when the tree holds a single file, and fails otherwise (in particular
on an empty tree). -/
theorem C7_single_file_fallback (windows : Bool) (rn : String) (files : List (List String))
    (hex : exactMatches windows rn files = []) (hpr : probableMatches files = []) :
    (∀ f, files = [f] → find_binaries windows rn files = some (f, [])) ∧
    (files.length ≠ 1 → find_binaries windows rn files = none) := by
  constructor
  · rintro f rfl
    rw [find_binaries.eq_def, find_primary.eq_def, hex, hpr]
    rfl
  · intro hlen
    rcases files with _ | ⟨a, _ | ⟨b, t⟩⟩
    · rw [find_binaries.eq_def, find_primary.eq_def, hex, hpr]
    · exact absurd rfl hlen
    · rw [find_binaries.eq_def, find_primary.eq_def, hex, hpr]

/-- Witness for C7: a lone `notes.txt` is returned as primary with no
extras; an empty tree fails. -/
theorem C7_single_file_fallback_witness :
    find_binaries false "yoink" [["r", "notes.txt"]] = some (["r", "notes.txt"], []) ∧
    find_binaries false "yoink" ([] : List (List String)) = none :=
  ⟨(C7_single_file_fallback false "yoink" [["r", "notes.txt"]] (by decide) (by decide)).1
      ["r", "notes.txt"] rfl,
    (C7_single_file_fallback false "yoink" [] (by decide) (by decide)).2 (by decide)⟩


/-! ## Theorems: install copy loop -/

/-- The copy loop preserves: no duplicate destinations, every
destination directly inside the destination directory, and everything
already installed stays installed. -/
theorem installStep_foldl_spec (destDir : List String) (extras : List (List String)) :
    ∀ acc : List (List String), acc.Nodup → (∀ q ∈ acc, ∃ n, q = destDir ++ [n]) →
      (extras.foldl (installStep destDir) acc).Nodup ∧
      (∀ q ∈ extras.foldl (installStep destDir) acc, ∃ n, q = destDir ++ [n]) ∧
      (∀ q ∈ acc, q ∈ extras.foldl (installStep destDir) acc) := by
  induction extras with
  | nil => exact fun acc h1 h2 => ⟨h1, h2, fun q hq => hq⟩
  | cons e rest ih =>
    intro acc h1 h2
    have hstep : (installStep destDir acc e).Nodup ∧
        (∀ q ∈ installStep destDir acc e, ∃ n, q = destDir ++ [n]) ∧
        (∀ q ∈ acc, q ∈ installStep destDir acc e) := by
      rw [installStep.eq_def]
      rcases e.getLast? with _ | n
      · exact ⟨h1, h2, fun q hq => hq⟩
      · by_cases hc : acc.contains (destDir ++ [n]) = true
        · simp only [hc, if_true]
          exact ⟨h1, h2, fun q hq => hq⟩
        · rw [Bool.not_eq_true] at hc
          simp only [hc, Bool.false_eq_true, if_false]
          have hnotmem : destDir ++ [n] ∉ acc := by
            intro hmem
            rw [← List.elem_iff] at hmem
            rw [List.contains] at hc
            rw [hc] at hmem
            exact Bool.noConfusion hmem
          refine ⟨?_, ?_, fun q hq => List.mem_append_left _ hq⟩
          · exact List.Nodup.append h1 (List.nodup_singleton _)
              (by rw [List.disjoint_singleton]; exact hnotmem)
          · intro q hq
            rcases List.mem_append.mp hq with hq | hq
            · exact h2 q hq
            · rw [List.mem_singleton] at hq
              exact ⟨n, hq⟩
    obtain ⟨hs1, hs2, hs3⟩ := hstep
    obtain ⟨hr1, hr2, hr3⟩ := ih (installStep destDir acc e) hs1 hs2
    exact ⟨hr1, hr2, fun q hq => hr3 q (hs3 q hq)⟩

/-- Claim C10: every successful copy-loop run produces pairwise
distinct installed paths — a duplicate extra destination is skipped —
all directly inside the destination directory, with pairwise distinct
file names, and the list is never empty. -/
theorem C10_no_duplicate_installs (destDir primaryPath : List String)
    (extraPaths : List (List String)) (paths : List (List String))
    (h : download_to_dir_paths destDir primaryPath extraPaths = some paths) :
    paths.Nodup ∧ (∀ q ∈ paths, ∃ n, q = destDir ++ [n]) ∧
    (paths.map (fun q => q.getLast?)).Nodup ∧ paths ≠ [] := by
  rw [download_to_dir_paths.eq_def] at h
  rcases hg : primaryPath.getLast? with _ | name
  · rw [hg] at h
    exact absurd h (by simp)
  · rw [hg] at h
    simp only [Option.some.injEq] at h
    subst h
    obtain ⟨h1, h2, h3⟩ := installStep_foldl_spec destDir extraPaths [destDir ++ [name]]
      (List.nodup_singleton _)
      (by intro q hq; rw [List.mem_singleton] at hq; exact ⟨name, hq⟩)
    refine ⟨h1, h2, ?_, ?_⟩
    · refine List.Nodup.map_on ?_ h1
      intro x hx y hy hxy
      obtain ⟨nx, rfl⟩ := h2 x hx
      obtain ⟨ny, rfl⟩ := h2 y hy
      simp only [List.getLast?_concat, Option.some.injEq] at hxy
      rw [hxy]
    · intro hnil
      have hmem := h3 (destDir ++ [name]) (List.mem_singleton.mpr rfl)
      rw [hnil] at hmem
      exact List.not_mem_nil _ hmem

/-- Witness for C10 on a concrete run with a colliding extra name. -/
theorem C10_no_duplicate_installs_witness :
    ([["d", "tool"], ["d", "helper"]] : List (List String)).Nodup ∧
    (∀ q ∈ ([["d", "tool"], ["d", "helper"]] : List (List String)), ∃ n, q = ["d"] ++ [n]) ∧
    (([["d", "tool"], ["d", "helper"]] : List (List String)).map (fun q => q.getLast?)).Nodup ∧
    ([["d", "tool"], ["d", "helper"]] : List (List String)) ≠ [] :=
  C10_no_duplicate_installs ["d"] ["t", "tool"] [["x", "tool"], ["y", "helper"]]
    [["d", "tool"], ["d", "helper"]] (by decide)


/-! ## Theorems: ledger JSON round trip -/

theorem skipWs_cons_nl (l : List Char) : skipWs ('\n' :: l) = skipWs l := by
  simp [skipWs, List.dropWhile_cons, isWsChar]

theorem skipWs_cons_of_not {c : Char} (h : isWsChar c = false) (l : List Char) :
    skipWs (c :: l) = c :: l := by
  simp [skipWs, List.dropWhile_cons, h]

theorem indentChars_succ (n : Nat) : indentChars (n + 1) = ' ' :: indentChars n := by
  rw [indentChars, List.replicate_succ, indentChars]

theorem skipWs_indent (n : Nat) (l : List Char) : skipWs (indentChars n ++ l) = skipWs l := by
  induction n with
  | zero => rfl
  | succ n ih =>
    rw [indentChars_succ, List.cons_append]
    rw [show skipWs (' ' :: (indentChars n ++ l)) = skipWs (indentChars n ++ l) by
      simp [skipWs, List.dropWhile_cons, isWsChar]]
    exact ih

theorem skipWs_nl_indent (n : Nat) (l : List Char) :
    skipWs ('\n' :: (indentChars n ++ l)) = skipWs l := by
  rw [skipWs_cons_nl, skipWs_indent]

theorem hexVal_hexDigit : ∀ n < 16, hexVal (hexDigitChar n) = some n := by decide

/-- One-step unfolding of the string-body parser. -/
theorem parseStringBody_succ (f : Nat) (c : Char) (X : List Char) :
    parseStringBody (f + 1) (c :: X) =
      if c = '"' then some ([], X)
      else if c = '\\' then
        match parseEscapeChar X with
        | none => none
        | some (ch, rest2) =>
          (parseStringBody f rest2).map (fun pr => (ch :: pr.1, pr.2))
      else if c.toNat < 32 then none
      else (parseStringBody f X).map (fun pr => (c :: pr.1, pr.2)) := rfl

/-- Escaped string bodies parse back to the original characters. -/
theorem parseStringBody_escString (s : List Char) :
    ∀ fuel rest, s.length < fuel →
      parseStringBody fuel (escString s ++ '"' :: rest) = some (s, rest) := by
  induction s with
  | nil =>
    intro fuel rest hf
    obtain ⟨f, rfl⟩ : ∃ f, fuel = f + 1 := ⟨fuel - 1, by omega⟩
    rfl
  | cons c s ih =>
    intro fuel rest hf
    obtain ⟨f, rfl⟩ : ∃ f, fuel = f + 1 := ⟨fuel - 1, by omega⟩
    have hrec := ih f rest (by simp only [List.length_cons] at hf; omega)
    show parseStringBody (f + 1) ((escChar c ++ escString s) ++ '"' :: rest) = some (c :: s, rest)
    rw [List.append_assoc, escChar]
    by_cases h1 : c = '"'
    · subst h1
      rw [if_pos rfl, List.cons_append, List.cons_append, List.nil_append,
        parseStringBody_succ]
      simp [parseEscapeChar, hrec]
    rw [if_neg h1]
    by_cases h2 : c = '\\'
    · subst h2
      rw [if_pos rfl, List.cons_append, List.cons_append, List.nil_append,
        parseStringBody_succ]
      simp [parseEscapeChar, hrec]
    rw [if_neg h2]
    by_cases h3 : c = Char.ofNat 8
    · subst h3
      rw [if_pos rfl, List.cons_append, List.cons_append, List.nil_append,
        parseStringBody_succ]
      simp [parseEscapeChar, hrec]
    rw [if_neg h3]
    by_cases h4 : c = Char.ofNat 9
    · subst h4
      rw [if_pos rfl, List.cons_append, List.cons_append, List.nil_append,
        parseStringBody_succ]
      simp [parseEscapeChar, hrec]
    rw [if_neg h4]
    by_cases h5 : c = Char.ofNat 10
    · subst h5
      rw [if_pos rfl, List.cons_append, List.cons_append, List.nil_append,
        parseStringBody_succ]
      simp [parseEscapeChar, hrec]
    rw [if_neg h5]
    by_cases h6 : c = Char.ofNat 12
    · subst h6
      rw [if_pos rfl, List.cons_append, List.cons_append, List.nil_append,
        parseStringBody_succ]
      simp [parseEscapeChar, hrec]
    rw [if_neg h6]
    by_cases h7 : c = Char.ofNat 13
    · subst h7
      rw [if_pos rfl, List.cons_append, List.cons_append, List.nil_append,
        parseStringBody_succ]
      simp [parseEscapeChar, hrec]
    rw [if_neg h7]
    by_cases h8 : c.toNat < 32
    · rw [if_pos h8, List.cons_append, List.cons_append, List.cons_append,
        List.cons_append, List.cons_append, List.cons_append, List.nil_append,
        parseStringBody_succ]
      have h0 : hexVal '0' = some 0 := rfl
      have hdiv : hexVal (hexDigitChar (c.toNat / 16)) = some (c.toNat / 16) :=
        hexVal_hexDigit _ (by omega)
      have hmod : hexVal (hexDigitChar (c.toNat % 16)) = some (c.toNat % 16) :=
        hexVal_hexDigit _ (by omega)
      have hn : ((0 * 16 + 0) * 16 + c.toNat / 16) * 16 + c.toNat % 16 = c.toNat := by
        omega
      have hn2 : c.toNat / 16 * 16 + c.toNat % 16 = c.toNat := by omega
      have hlt : c.toNat < 55296 := by omega
      simp [parseEscapeChar, h0, hdiv, hmod, hn, hn2, hlt, Char.ofNat_toNat, hrec]
    · rw [if_neg h8, List.cons_append, List.nil_append, parseStringBody_succ]
      simp [h1, h2, h8, hrec]

/-- Rendered string literals parse back to the original string. -/
theorem parseJString_renderString (s : String) (rest : List Char) :
    parseJString (renderString s ++ rest) = some (s, rest) := by
  show parseJString ('"' :: ((escString s.data ++ [ '"' ]) ++ rest)) = some (s, rest)
  rw [List.append_assoc, List.singleton_append]
  have hlen : s.data.length < (escString s.data ++ '"' :: rest).length := by
    have hesc : s.data.length ≤ (escString s.data).length := by
      induction s.data with
      | nil => simp [escString]
      | cons c t ih =>
        have hc : 1 ≤ (escChar c).length := by
          rw [escChar]
          split_ifs <;> simp
        show t.length + 1 ≤ (escChar c ++ escString t).length
        rw [List.length_append]
        omega
    rw [List.length_append, List.length_cons]
    omega
  show (if '"' = '"' then
      (parseStringBody (escString s.data ++ '"' :: rest).length
        (escString s.data ++ '"' :: rest)).map (fun pr => (String.mk pr.1, pr.2))
    else none) = some (s, rest)
  rw [if_pos rfl, parseStringBody_escString s.data _ rest hlen]
  rfl


theorem skipWs_idem (l : List Char) : skipWs (skipWs l) = skipWs l := by
  induction l with
  | nil => rfl
  | cons c t ih =>
    by_cases h : isWsChar c = true
    · have hstep : skipWs (c :: t) = skipWs t := by
        simp [skipWs, List.dropWhile_cons, h]
      rw [hstep]
      exact ih
    · rw [Bool.not_eq_true] at h
      rw [skipWs_cons_of_not h, skipWs_cons_of_not h]

theorem skipWs_renderString (s : String) (l : List Char) :
    skipWs (renderString s ++ l) = renderString s ++ l := by
  show skipWs ('"' :: ((escString s.data ++ [ '"' ]) ++ l)) =
    '"' :: ((escString s.data ++ [ '"' ]) ++ l)
  exact skipWs_cons_of_not (by decide) _

/-- One-step unfolding of the array items loop. -/
theorem parseStrArrayItems_succ (f : Nat) (input : List Char) :
    parseStrArrayItems (f + 1) input =
      match skipWs input with
      | [] => none
      | c :: rest =>
        if c = ']' then some ([], rest)
        else if c = ',' then
          match parseJString (skipWs rest) with
          | none => none
          | some (s, r) =>
            (parseStrArrayItems f r).map (fun pr => (s :: pr.1, pr.2))
        else none := rfl

theorem parseStrArrayItems_close (f : Nat) (tail : List Char) :
    parseStrArrayItems (f + 1) (']' :: tail) = some ([], tail) := rfl

theorem parseStrArrayItems_comma (f : Nat) (tail : List Char) :
    parseStrArrayItems (f + 1) (',' :: tail) =
      match parseJString (skipWs tail) with
      | none => none
      | some (s, r) =>
        (parseStrArrayItems f r).map (fun pr => (s :: pr.1, pr.2)) := rfl

theorem parseStrArrayItems_skipWs (f : Nat) (input : List Char) :
    parseStrArrayItems (f + 1) input = parseStrArrayItems (f + 1) (skipWs input) := by
  rw [parseStrArrayItems_succ, parseStrArrayItems_succ, skipWs_idem]

/-- The rendered tail of a string array parses back to its items. -/
theorem parseStrArrayItems_renderTail (j i : Nat) (xs : List String) :
    ∀ fuel rest, xs.length < fuel →
      parseStrArrayItems fuel
        (renderStrArrayTail j xs ++ '\n' :: (indentChars i ++ ']' :: rest)) =
      some (xs, rest) := by
  induction xs with
  | nil =>
    intro fuel rest hf
    obtain ⟨f, rfl⟩ : ∃ f, fuel = f + 1 := ⟨fuel - 1, by omega⟩
    rw [show renderStrArrayTail j [] = [] from rfl, List.nil_append,
      parseStrArrayItems_skipWs, skipWs_nl_indent, skipWs_cons_of_not (by decide),
      parseStrArrayItems_close]
  | cons y ys ih =>
    intro fuel rest hf
    obtain ⟨f, rfl⟩ : ∃ f, fuel = f + 1 := ⟨fuel - 1, by omega⟩
    have hrec := ih f rest (by simp only [List.length_cons] at hf; omega)
    show parseStrArrayItems (f + 1)
      ((',' :: '\n' :: (indentChars j ++ renderString y ++ renderStrArrayTail j ys)) ++
        '\n' :: (indentChars i ++ ']' :: rest)) = some (y :: ys, rest)
    simp only [List.cons_append, List.append_assoc]
    rw [parseStrArrayItems_comma, skipWs_nl_indent, skipWs_renderString,
      parseJString_renderString]
    simp [hrec]

/-- One-step unfolding of the array parser at an opening bracket. -/
theorem parseStrArray_open (fuel : Nat) (tail : List Char) :
    parseStrArray fuel ('[' :: tail) =
      match skipWs tail with
      | [] => none
      | c2 :: rest2 =>
        if c2 = ']' then some ([], rest2)
        else
          match parseJString (c2 :: rest2) with
          | none => none
          | some (s, r) =>
            (parseStrArrayItems fuel r).map (fun pr => (s :: pr.1, pr.2)) := rfl

/-- Rendered string arrays parse back to their items. -/
theorem parseStrArray_renderStrArray (ind : Nat) (xs : List String) :
    ∀ fuel rest, xs.length < fuel →
      parseStrArray fuel (renderStrArray ind xs ++ rest) = some (xs, rest) := by
  intro fuel rest hf
  cases xs with
  | nil => rfl
  | cons x ys =>
    show parseStrArray fuel
      (('[' :: '\n' :: (indentChars (ind + 2) ++ renderString x
        ++ renderStrArrayTail (ind + 2) ys ++ '\n' :: (indentChars ind ++ [ ']' ]))) ++
        rest) = some (x :: ys, rest)
    simp only [List.cons_append, List.append_assoc, List.singleton_append, List.nil_append]
    rw [parseStrArray_open, skipWs_nl_indent, skipWs_renderString]
    obtain ⟨T, hT⟩ : ∃ T, renderString x ++ (renderStrArrayTail (ind + 2) ys ++
        '\n' :: (indentChars ind ++ ']' :: rest)) = '"' :: T :=
      ⟨(escString x.data ++ [ '"' ]) ++ _, rfl⟩
    rw [hT]
    show (match parseJString ('"' :: T) with
      | none => none
      | some (s, r) => Option.map (fun pr => (s :: pr.1, pr.2)) (parseStrArrayItems fuel r)) =
      some (x :: ys, rest)
    rw [← hT, parseJString_renderString]
    simp [parseStrArrayItems_renderTail (ind + 2) ind ys fuel rest
      (by simp only [List.length_cons] at hf; omega)]


theorem skipWs_space (l : List Char) : skipWs (' ' :: l) = skipWs l := by
  simp [skipWs, List.dropWhile_cons, isWsChar]

theorem skipWs_renderStrArray (ind : Nat) (xs : List String) (l : List Char) :
    skipWs (renderStrArray ind xs ++ l) = renderStrArray ind xs ++ l := by
  obtain ⟨T, hT⟩ : ∃ T, renderStrArray ind xs ++ l = '[' :: T := by
    cases xs with
    | nil => exact ⟨_, rfl⟩
    | cons x ys => exact ⟨_, rfl⟩
  rw [hT]
  exact skipWs_cons_of_not (by decide) _

theorem skipWs_renderEntry (ind : Nat) (e : InstallEntry) (l : List Char) :
    skipWs (renderEntry ind e ++ l) = renderEntry ind e ++ l := by
  obtain ⟨T, hT⟩ : ∃ T, renderEntry ind e ++ l = lbrace :: T := ⟨_, rfl⟩
  rw [hT]
  exact skipWs_cons_of_not (by decide) _

theorem skipWs_renderInstalls (ind : Nat) (l2 : List (String × InstallEntry)) (l : List Char) :
    skipWs (renderInstalls ind l2 ++ l) = renderInstalls ind l2 ++ l := by
  obtain ⟨T, hT⟩ : ∃ T, renderInstalls ind l2 ++ l = lbrace :: T := by
    cases l2 with
    | nil => exact ⟨_, rfl⟩
    | cons kv ys => exact ⟨_, rfl⟩
  rw [hT]
  exact skipWs_cons_of_not (by decide) _

/-- Parsing the `version` field. -/
theorem parseEntryField_version (f : Nat) (b2 : Option String) (bs : Option (List String))
    (v : String) (tail : List Char) :
    parseEntryField f (none, b2, bs)
      (renderString "version" ++ ':' :: ' ' :: (renderString v ++ tail)) =
      some ((some v, b2, bs), tail) := by
  rw [parseEntryField.eq_def, parseJString_renderString]
  show (parseJString (skipWs (' ' :: (renderString v ++ tail)))).map
    (fun pr => ((some pr.1, b2, bs), pr.2)) = some ((some v, b2, bs), tail)
  rw [skipWs_space, skipWs_renderString, parseJString_renderString]
  rfl

/-- Parsing the `bin` field. -/
theorem parseEntryField_bin (f : Nat) (v2 : Option String) (bs : Option (List String))
    (b : String) (tail : List Char) :
    parseEntryField f (v2, none, bs)
      (renderString "bin" ++ ':' :: ' ' :: (renderString b ++ tail)) =
      some ((v2, some b, bs), tail) := by
  rw [parseEntryField.eq_def, parseJString_renderString]
  show (parseJString (skipWs (' ' :: (renderString b ++ tail)))).map
    (fun pr => ((v2, some pr.1, bs), pr.2)) = some ((v2, some b, bs), tail)
  rw [skipWs_space, skipWs_renderString, parseJString_renderString]
  rfl

/-- Parsing the `bins` field. -/
theorem parseEntryField_bins (f ind : Nat) (v2 b2 : Option String)
    (xs : List String) (tail : List Char) (hf : xs.length < f) :
    parseEntryField f (v2, b2, none)
      (renderString "bins" ++ ':' :: ' ' :: (renderStrArray ind xs ++ tail)) =
      some ((v2, b2, some xs), tail) := by
  rw [parseEntryField.eq_def, parseJString_renderString]
  show (parseStrArray f (skipWs (' ' :: (renderStrArray ind xs ++ tail)))).map
    (fun pr => ((v2, b2, some pr.1), pr.2)) = some ((v2, b2, some xs), tail)
  rw [skipWs_space, skipWs_renderStrArray, parseStrArray_renderStrArray ind xs f tail hf]
  rfl

/-- One-step unfoldings of the entry fields loop. -/
theorem parseEntryFields_succ (f : Nat)
    (fields : Option String × Option String × Option (List String)) (input : List Char) :
    parseEntryFields (f + 1) fields input =
      match skipWs input with
      | [] => none
      | c :: rest =>
        if c = rbrace then
          match fields with
          | (some v, some b, bs) => some (⟨v, b, bs.getD []⟩, rest)
          | _ => none
        else if c = ',' then
          match parseEntryField f fields (skipWs rest) with
          | none => none
          | some (fields2, r) => parseEntryFields f fields2 r
        else none := rfl

theorem parseEntryFields_close (f : Nat) (v b : String) (bs : Option (List String))
    (tail : List Char) :
    parseEntryFields (f + 1) (some v, some b, bs) (rbrace :: tail) =
      some (⟨v, b, bs.getD []⟩, tail) := rfl

theorem parseEntryFields_comma (f : Nat)
    (fields : Option String × Option String × Option (List String)) (tail : List Char) :
    parseEntryFields (f + 1) fields (',' :: tail) =
      match parseEntryField f fields (skipWs tail) with
      | none => none
      | some (fields2, r) => parseEntryFields f fields2 r := rfl

theorem parseEntryFields_skipWs (f : Nat)
    (fields : Option String × Option String × Option (List String)) (input : List Char) :
    parseEntryFields (f + 1) fields input = parseEntryFields (f + 1) fields (skipWs input) := by
  rw [parseEntryFields_succ, parseEntryFields_succ, skipWs_idem]

theorem parseEntry_open (fuel : Nat) (tail : List Char) :
    parseEntry fuel (lbrace :: tail) =
      match parseEntryField fuel (none, none, none) (skipWs tail) with
      | none => none
      | some (fields, r) => parseEntryFields fuel fields r := rfl

/-- Rendered entry objects parse back to the entry. -/
theorem parseEntry_renderEntry (ind : Nat) (e : InstallEntry) :
    ∀ fuel rest, e.bins.length + 4 ≤ fuel →
      parseEntry fuel (renderEntry ind e ++ rest) = some (e, rest) := by
  rcases e with ⟨v, b, bins⟩
  intro fuel rest hf
  obtain ⟨f, rfl⟩ : ∃ f, fuel = f + 1 + 1 + 1 := ⟨fuel - 3, by omega⟩
  rw [renderEntry]
  simp only [List.cons_append, List.append_assoc]
  rw [parseEntry_open, skipWs_nl_indent, skipWs_renderString, parseEntryField_version]
  show parseEntryFields (f + 1 + 1 + 1) (some v, none, none)
    (',' :: '\n' :: (indentChars (ind + 2) ++ (renderString "bin" ++ ':' :: ' ' ::
      (renderString b ++
        ((if bins.isEmpty then [] else
          ',' :: '\n' :: (indentChars (ind + 2) ++ (renderString "bins" ++ ':' :: ' ' ::
            renderStrArray (ind + 2) bins))) ++
          ('\n' :: (indentChars ind ++ ([rbrace] ++ rest)))))))) = some (⟨v, b, bins⟩, rest)
  rw [parseEntryFields_comma, skipWs_nl_indent, skipWs_renderString, parseEntryField_bin]
  cases bins with
  | nil =>
    show parseEntryFields (f + 1 + 1) (some v, some b, none)
      (([] : List Char) ++ ('\n' :: (indentChars ind ++ ([rbrace] ++ rest)))) =
      some (⟨v, b, []⟩, rest)
    rw [List.nil_append, List.singleton_append, parseEntryFields_skipWs, skipWs_nl_indent,
      skipWs_cons_of_not (by decide), parseEntryFields_close]
    rfl
  | cons b0 bt =>
    show parseEntryFields (f + 1 + 1) (some v, some b, none)
      ((',' :: '\n' :: (indentChars (ind + 2) ++ (renderString "bins" ++ ':' :: ' ' ::
        renderStrArray (ind + 2) (b0 :: bt)))) ++
        ('\n' :: (indentChars ind ++ ([rbrace] ++ rest)))) =
      some (⟨v, b, b0 :: bt⟩, rest)
    simp only [List.cons_append, List.append_assoc, List.singleton_append]
    rw [parseEntryFields_comma, skipWs_nl_indent, skipWs_renderString,
      parseEntryField_bins (f + 1) (ind + 2) (some v) (some b) (b0 :: bt) _
        (by simp only [List.length_cons] at hf ⊢; omega)]
    show parseEntryFields (f + 1) (some v, some b, some (b0 :: bt))
      ('\n' :: (indentChars ind ++ rbrace :: rest)) = some (⟨v, b, b0 :: bt⟩, rest)
    rw [parseEntryFields_skipWs, skipWs_nl_indent, skipWs_cons_of_not (by decide),
      parseEntryFields_close]
    rfl


/-- Rendered `"key": entry` items parse back to the pair. -/
theorem parseInstallsItem_render (fuel ind : Nat) (k : String) (e : InstallEntry)
    (tail : List Char) (hf : e.bins.length + 4 ≤ fuel) :
    parseInstallsItem fuel (renderString k ++ ':' :: ' ' :: (renderEntry ind e ++ tail)) =
      some ((k, e), tail) := by
  rw [parseInstallsItem.eq_def, parseJString_renderString]
  show (parseEntry fuel (skipWs (' ' :: (renderEntry ind e ++ tail)))).map
    (fun pr => ((k, pr.1), pr.2)) = some ((k, e), tail)
  rw [skipWs_space, skipWs_renderEntry, parseEntry_renderEntry ind e fuel tail hf]
  rfl

/-- One-step unfoldings of the installs items loop. -/
theorem parseInstallsItems_succ (f : Nat) (input : List Char) :
    parseInstallsItems (f + 1) input =
      match skipWs input with
      | [] => none
      | c :: rest =>
        if c = rbrace then some ([], rest)
        else if c = ',' then
          match parseInstallsItem f (skipWs rest) with
          | none => none
          | some (kv, r) =>
            (parseInstallsItems f r).map (fun pr => (kv :: pr.1, pr.2))
        else none := rfl

theorem parseInstallsItems_close (f : Nat) (tail : List Char) :
    parseInstallsItems (f + 1) (rbrace :: tail) = some ([], tail) := rfl

theorem parseInstallsItems_comma (f : Nat) (tail : List Char) :
    parseInstallsItems (f + 1) (',' :: tail) =
      match parseInstallsItem f (skipWs tail) with
      | none => none
      | some (kv, r) =>
        (parseInstallsItems f r).map (fun pr => (kv :: pr.1, pr.2)) := rfl

theorem parseInstallsItems_skipWs (f : Nat) (input : List Char) :
    parseInstallsItems (f + 1) input = parseInstallsItems (f + 1) (skipWs input) := by
  rw [parseInstallsItems_succ, parseInstallsItems_succ, skipWs_idem]

/-- The rendered tail of the installs object parses back to its items. -/
theorem parseInstallsItems_renderTail (j i : Nat) (l : List (String × InstallEntry)) :
    ∀ fuel rest, l.length < fuel →
      (∀ kv ∈ l, kv.2.bins.length + 4 + l.length ≤ fuel) →
      parseInstallsItems fuel
        (renderInstallsTail j l ++ '\n' :: (indentChars i ++ rbrace :: rest)) =
      some (l, rest) := by
  induction l with
  | nil =>
    intro fuel rest hlen hbins
    obtain ⟨f, rfl⟩ : ∃ f, fuel = f + 1 := ⟨fuel - 1, by omega⟩
    rw [show renderInstallsTail j [] = [] from rfl, List.nil_append,
      parseInstallsItems_skipWs, skipWs_nl_indent, skipWs_cons_of_not (by decide),
      parseInstallsItems_close]
  | cons kv ys ih =>
    intro fuel rest hlen hbins
    obtain ⟨f, rfl⟩ : ∃ f, fuel = f + 1 := ⟨fuel - 1, by omega⟩
    obtain ⟨k, e⟩ := kv
    have hrec := ih f rest (by simp only [List.length_cons] at hlen; omega)
      (by
        intro kv2 hkv2
        have := hbins kv2 (List.mem_cons_of_mem _ hkv2)
        simp only [List.length_cons] at this
        omega)
    have hf : e.bins.length + 4 ≤ f := by
      have := hbins (k, e) (List.mem_cons_self _ _)
      simp only [List.length_cons] at this
      omega
    show parseInstallsItems (f + 1)
      ((',' :: '\n' :: (indentChars j ++ renderString k ++ ':' :: ' ' ::
        (renderEntry j e ++ renderInstallsTail j ys))) ++
        '\n' :: (indentChars i ++ rbrace :: rest)) = some ((k, e) :: ys, rest)
    simp only [List.cons_append, List.append_assoc]
    rw [parseInstallsItems_comma, skipWs_nl_indent, skipWs_renderString,
      parseInstallsItem_render f j k e _ hf]
    simp [hrec]

theorem parseInstalls_open (fuel : Nat) (tail : List Char) :
    parseInstalls fuel (lbrace :: tail) =
      match skipWs tail with
      | [] => none
      | c2 :: rest2 =>
        if c2 = rbrace then some ([], rest2)
        else
          match parseInstallsItem fuel (c2 :: rest2) with
          | none => none
          | some (kv, r) =>
            (parseInstallsItems fuel r).map (fun pr => (kv :: pr.1, pr.2)) := rfl

/-- The rendered installs object parses back to its association list. -/
theorem parseInstalls_renderInstalls (ind : Nat) (l : List (String × InstallEntry)) :
    ∀ fuel rest, l.length < fuel →
      (∀ kv ∈ l, kv.2.bins.length + 4 + l.length ≤ fuel) →
      parseInstalls fuel (renderInstalls ind l ++ rest) = some (l, rest) := by
  intro fuel rest hlen hbins
  cases l with
  | nil => rfl
  | cons kv ys =>
    obtain ⟨k, e⟩ := kv
    have hf : e.bins.length + 4 ≤ fuel := by
      have := hbins (k, e) (List.mem_cons_self _ _)
      simp only [List.length_cons] at this
      omega
    have hitems : parseInstallsItems fuel
        (renderInstallsTail (ind + 2) ys ++ '\n' :: (indentChars ind ++ rbrace :: rest)) =
        some (ys, rest) := by
      refine parseInstallsItems_renderTail (ind + 2) ind ys fuel rest
        (by simp only [List.length_cons] at hlen; omega) ?_
      intro kv2 hkv2
      have := hbins kv2 (List.mem_cons_of_mem _ hkv2)
      simp only [List.length_cons] at this
      omega
    show parseInstalls fuel
      ((lbrace :: '\n' :: (indentChars (ind + 2) ++ renderString k ++ ':' :: ' ' ::
        (renderEntry (ind + 2) e ++ renderInstallsTail (ind + 2) ys ++
          '\n' :: (indentChars ind ++ [rbrace])))) ++ rest) = some ((k, e) :: ys, rest)
    simp only [List.cons_append, List.append_assoc, List.singleton_append, List.nil_append]
    rw [parseInstalls_open, skipWs_nl_indent, skipWs_renderString]
    obtain ⟨T, hT⟩ : ∃ T, renderString k ++ (':' :: ' ' ::
        (renderEntry (ind + 2) e ++ (renderInstallsTail (ind + 2) ys ++
          '\n' :: (indentChars ind ++ rbrace :: rest)))) = '"' :: T := ⟨_, rfl⟩
    rw [hT]
    show (match parseInstallsItem fuel ('"' :: T) with
      | none => none
      | some (kv, r) =>
        (parseInstallsItems fuel r).map (fun pr => (kv :: pr.1, pr.2))) =
      some ((k, e) :: ys, rest)
    rw [← hT, parseInstallsItem_render fuel (ind + 2) k e _ hf]
    simp [hitems]

/-- The rendered state document parses back to the state. -/
theorem parseState_renderState (s : InstallState) :
    ∀ fuel rest, s.installs.length < fuel →
      (∀ kv ∈ s.installs, kv.2.bins.length + 4 + s.installs.length ≤ fuel) →
      parseState fuel (renderState s ++ rest) = some (s, rest) := by
  intro fuel rest hlen hbins
  show parseState fuel
    ((lbrace :: '\n' :: (indentChars 2 ++ renderString "installs" ++ ':' :: ' ' ::
      (renderInstalls 2 s.installs ++ '\n' :: [rbrace]))) ++ rest) = some (s, rest)
  simp only [List.cons_append, List.append_assoc, List.singleton_append, List.nil_append]
  rw [parseState.eq_def, skipWs_cons_of_not (by decide)]
  show (match skipWs ('\n' :: (indentChars 2 ++ (renderString "installs" ++ ':' :: ' ' ::
      (renderInstalls 2 s.installs ++ '\n' :: rbrace :: rest)))) with
    | [] => none
    | c2 :: rest2 =>
      if c2 = rbrace then some ((⟨[]⟩ : InstallState), rest2)
      else
        match parseJString (c2 :: rest2) with
        | none => none
        | some (key, r) =>
          if key = "installs" then
            match skipWs r with
            | [] => none
            | c3 :: r2 =>
              if c3 = ':' then
                match parseInstalls fuel (skipWs r2) with
                | none => none
                | some (installs, r3) =>
                  match skipWs r3 with
                  | [] => none
                  | c4 :: r4 => if c4 = rbrace then some (⟨installs⟩, r4) else none
              else none
          else none) = some (s, rest)
  rw [skipWs_nl_indent, skipWs_renderString]
  obtain ⟨T, hT⟩ : ∃ T, renderString "installs" ++ (':' :: ' ' ::
      (renderInstalls 2 s.installs ++ '\n' :: rbrace :: rest)) = '"' :: T := ⟨_, rfl⟩
  rw [hT]
  show (match parseJString ('"' :: T) with
    | none => none
    | some (key, r) =>
      if key = "installs" then
        match skipWs r with
        | [] => none
        | c3 :: r2 =>
          if c3 = ':' then
            match parseInstalls fuel (skipWs r2) with
            | none => none
            | some (installs, r3) =>
              match skipWs r3 with
              | [] => none
              | c4 :: r4 => if c4 = rbrace then some (⟨installs⟩, r4) else none
          else none
      else none) = some (s, rest)
  rw [← hT, parseJString_renderString]
  show (match skipWs (':' :: ' ' :: (renderInstalls 2 s.installs ++ '\n' :: rbrace :: rest)) with
    | [] => none
    | c3 :: r2 =>
      if c3 = ':' then
        match parseInstalls fuel (skipWs r2) with
        | none => none
        | some (installs, r3) =>
          match skipWs r3 with
          | [] => none
          | c4 :: r4 => if c4 = rbrace then some (⟨installs⟩, r4) else none
      else none) = some (s, rest)
  rw [skipWs_cons_of_not (by decide)]
  show (match parseInstalls fuel
      (skipWs (' ' :: (renderInstalls 2 s.installs ++ '\n' :: rbrace :: rest))) with
    | none => none
    | some (installs, r3) =>
      match skipWs r3 with
      | [] => none
      | c4 :: r4 => if c4 = rbrace then some (⟨installs⟩, r4) else none) = some (s, rest)
  rw [skipWs_space, skipWs_renderInstalls,
    parseInstalls_renderInstalls 2 s.installs fuel _ hlen hbins]
  show (match skipWs ('\n' :: rbrace :: rest) with
    | [] => none
    | c4 :: r4 => if c4 = rbrace then some ((⟨s.installs⟩ : InstallState), r4) else none) =
    some (s, rest)
  rw [skipWs_cons_nl, skipWs_cons_of_not (by decide)]
  rfl


theorem renderString_length_ge (s : String) : 2 ≤ (renderString s).length := by
  show 2 ≤ ('"' :: (escString s.data ++ [ '"' ])).length
  simp only [List.length_cons, List.length_append, List.length_singleton]
  omega

theorem renderStrArrayTail_length_ge (j : Nat) (ys : List String) :
    ys.length ≤ (renderStrArrayTail j ys).length := by
  induction ys with
  | nil => simp [renderStrArrayTail]
  | cons y t ih =>
    show t.length + 1 ≤ (',' :: '\n' ::
      (indentChars j ++ renderString y ++ renderStrArrayTail j t)).length
    simp only [List.length_cons, List.length_append]
    omega

theorem renderStrArray_length_ge (ind : Nat) (xs : List String) :
    xs.length ≤ (renderStrArray ind xs).length := by
  cases xs with
  | nil => simp [renderStrArray]
  | cons x ys =>
    have h1 := renderStrArrayTail_length_ge (ind + 2) ys
    show ys.length + 1 ≤ ('[' :: '\n' :: (indentChars (ind + 2) ++ renderString x
      ++ renderStrArrayTail (ind + 2) ys ++ '\n' :: (indentChars ind ++ [ ']' ]))).length
    simp only [List.length_cons, List.length_append, List.length_singleton, List.length_nil]
    omega

theorem renderEntry_length_ge (ind : Nat) (e : InstallEntry) :
    e.bins.length + 4 ≤ (renderEntry ind e).length := by
  rcases e with ⟨v, b, bins⟩
  show bins.length + 4 ≤ (renderEntry ind ⟨v, b, bins⟩).length
  rw [renderEntry]
  cases bins with
  | nil =>
    simp only [List.length_cons, List.length_append, List.length_singleton,
      List.length_nil, List.isEmpty_nil, if_true]
    omega
  | cons b0 bt =>
    have h1 := renderStrArray_length_ge (ind + 2) (b0 :: bt)
    simp only [List.length_cons] at h1
    show (b0 :: bt).length + 4 ≤ (lbrace :: '\n' :: (indentChars (ind + 2) ++
      renderString "version" ++ ':' :: ' ' :: (renderString v ++ ',' :: '\n' ::
        (indentChars (ind + 2) ++ renderString "bin" ++ ':' :: ' ' ::
          (renderString b ++ (',' :: '\n' :: (indentChars (ind + 2) ++
            renderString "bins" ++ ':' :: ' ' :: renderStrArray (ind + 2) (b0 :: bt)))
            ++ '\n' :: (indentChars ind ++ [rbrace])))))).length
    simp only [List.length_cons, List.length_append, List.length_singleton, List.length_nil]
    omega

theorem renderInstallsTail_length_ge (j : Nat) (l : List (String × InstallEntry)) :
    l.length ≤ (renderInstallsTail j l).length := by
  induction l with
  | nil => simp [renderInstallsTail]
  | cons kv t ih =>
    obtain ⟨k, e⟩ := kv
    show t.length + 1 ≤ (',' :: '\n' :: (indentChars j ++ renderString k ++ ':' :: ' ' ::
      (renderEntry j e ++ renderInstallsTail j t))).length
    simp only [List.length_cons, List.length_append]
    omega

theorem renderInstallsTail_bins_bound (j : Nat) (l : List (String × InstallEntry)) :
    ∀ kv ∈ l, kv.2.bins.length + 4 + l.length ≤ (renderInstallsTail j l).length + 2 := by
  induction l with
  | nil => intro kv hkv; exact absurd hkv (List.not_mem_nil kv)
  | cons kv0 t ih =>
    obtain ⟨k, e⟩ := kv0
    intro kv hkv
    have hlen : (renderInstallsTail j ((k, e) :: t)).length =
        2 + (indentChars j).length + (renderString k).length + 2 +
          (renderEntry j e).length + (renderInstallsTail j t).length := by
      show (',' :: '\n' :: (indentChars j ++ renderString k ++ ':' :: ' ' ::
        (renderEntry j e ++ renderInstallsTail j t))).length = _
      simp only [List.length_cons, List.length_append]
      omega
    rcases List.mem_cons.mp hkv with rfl | hkv2
    · have h1 := renderEntry_length_ge j e
      have h2 := renderInstallsTail_length_ge j t
      dsimp only
      simp only [List.length_cons]
      omega
    · have h1 := ih kv hkv2
      simp only [List.length_cons]
      omega

theorem renderInstalls_length_ge (ind : Nat) (l : List (String × InstallEntry)) :
    l.length ≤ (renderInstalls ind l).length := by
  cases l with
  | nil => simp [renderInstalls]
  | cons kv t =>
    obtain ⟨k, e⟩ := kv
    have h1 := renderInstallsTail_length_ge (ind + 2) t
    show t.length + 1 ≤ (lbrace :: '\n' :: (indentChars (ind + 2) ++ renderString k ++
      ':' :: ' ' :: (renderEntry (ind + 2) e ++ renderInstallsTail (ind + 2) t
        ++ '\n' :: (indentChars ind ++ [rbrace])))).length
    simp only [List.length_cons, List.length_append, List.length_singleton, List.length_nil]
    omega

theorem renderInstalls_bins_bound (ind : Nat) (l : List (String × InstallEntry)) :
    ∀ kv ∈ l, kv.2.bins.length + 4 + l.length ≤ (renderInstalls ind l).length := by
  cases l with
  | nil => intro kv hkv; exact absurd hkv (List.not_mem_nil kv)
  | cons kv0 t =>
    obtain ⟨k, e⟩ := kv0
    intro kv hkv
    have hlen : (renderInstalls ind ((k, e) :: t)).length =
        2 + (indentChars (ind + 2)).length + (renderString k).length + 2 +
          (renderEntry (ind + 2) e).length + (renderInstallsTail (ind + 2) t).length +
          1 + (indentChars ind).length + 1 := by
      show (lbrace :: '\n' :: (indentChars (ind + 2) ++ renderString k ++
        ':' :: ' ' :: (renderEntry (ind + 2) e ++ renderInstallsTail (ind + 2) t
          ++ '\n' :: (indentChars ind ++ [rbrace])))).length = _
      simp only [List.length_cons, List.length_append, List.length_singleton, List.length_nil]
      omega
    rcases List.mem_cons.mp hkv with rfl | hkv2
    · have h1 := renderEntry_length_ge (ind + 2) e
      have h2 := renderInstallsTail_length_ge (ind + 2) t
      dsimp only
      simp only [List.length_cons]
      omega
    · have h1 := renderInstallsTail_bins_bound (ind + 2) t kv hkv2
      simp only [List.length_cons]
      omega

theorem renderState_length_ge (s : InstallState) :
    (renderInstalls 2 s.installs).length + 4 ≤ (renderState s).length := by
  show (renderInstalls 2 s.installs).length + 4 ≤ (lbrace :: '\n' :: (indentChars 2 ++
    renderString "installs" ++ ':' :: ' ' ::
      (renderInstalls 2 s.installs ++ '\n' :: [rbrace]))).length
  have h1 := renderString_length_ge "installs"
  simp only [List.length_cons, List.length_append, List.length_singleton]
  omega

theorem rustTrim_cons_ne_nil {c : Char} (h : isWsChar c = false) (t : List Char) :
    rustTrim (c :: t) ≠ [] := by
  rw [rustTrim]
  intro hnil
  rw [List.reverse_eq_nil_iff, List.dropWhile_eq_nil_iff] at hnil
  have hdrop : List.dropWhile isWsChar (c :: t) = c :: t := by
    simp [List.dropWhile_cons, h]
  rw [hdrop] at hnil
  have hc := hnil c (by rw [List.mem_reverse]; exact List.mem_cons_self c t)
  rw [h] at hc
  exact Bool.noConfusion hc

/-- Writing the state and reading it back yields the same state. -/
theorem read_write_roundtrip (s : InstallState) :
    read_state_locked (write_state_locked s) = some s := by
  rw [read_state_locked.eq_def]
  have hdata : (write_state_locked s).data = renderState s ++ [ '\n' ] := rfl
  rw [hdata]
  obtain ⟨T, hT⟩ : ∃ T, renderState s ++ [ '\n' ] = lbrace :: T := ⟨_, rfl⟩
  have htrim : (rustTrim (renderState s ++ [ '\n' ])).isEmpty = false := by
    rw [hT]
    cases hE : (rustTrim (lbrace :: T)).isEmpty
    · rfl
    · exact absurd (List.isEmpty_iff.mp hE) (rustTrim_cons_ne_nil (by decide) T)
  rw [if_neg (by simp [htrim])]
  have hil := renderInstalls_length_ge 2 s.installs
  have hsl := renderState_length_ge s
  have hlen : s.installs.length < (renderState s ++ [ '\n' ]).length + 1 := by
    simp only [List.length_append, List.length_singleton]
    omega
  have hbins : ∀ kv ∈ s.installs,
      kv.2.bins.length + 4 + s.installs.length ≤ (renderState s ++ [ '\n' ]).length + 1 := by
    intro kv hkv
    have h1 := renderInstalls_bins_bound 2 s.installs kv hkv
    simp only [List.length_append, List.length_singleton]
    omega
  rw [parseState_renderState s ((renderState s ++ [ '\n' ]).length + 1) [ '\n' ] hlen hbins]
  rfl

/-- Claim C8: writing any ledger state (a `BTreeMap`, i.e. an
association list with pairwise distinct keys, rendered in ascending
order) and reading it back yields the identical mapping, and reading an
empty file yields the empty mapping rather than a parse error. -/
theorem C8_ledger_roundtrip (s : InstallState)
    (hkeys : List.Pairwise (fun a b => a.1 ≠ b.1) s.installs) :
    read_state_locked (write_state_locked s) = some s ∧
    read_state_locked "" = some ⟨[]⟩ :=
  ⟨read_write_roundtrip s, rfl⟩

/-- Witness for C8 at a concrete two-entry ledger. -/
theorem C8_ledger_roundtrip_witness :
    read_state_locked (write_state_locked
      ⟨[("a/b", ⟨"v1", "/bin/a", ["/bin/c"]⟩), ("m/n", ⟨"2.0", "/x", []⟩)]⟩) =
      some ⟨[("a/b", ⟨"v1", "/bin/a", ["/bin/c"]⟩), ("m/n", ⟨"2.0", "/x", []⟩)]⟩ ∧
    read_state_locked "" = some ⟨[]⟩ :=
  C8_ledger_roundtrip
    ⟨[("a/b", ⟨"v1", "/bin/a", ["/bin/c"]⟩), ("m/n", ⟨"2.0", "/x", []⟩)]⟩ (by decide)


/-! ## Theorems: remove_install -/

theorem contains_eq_false_iff_not_mem {l : List String} {a : String} :
    l.contains a = false ↔ a ∉ l := by
  constructor
  · intro h hmem
    rw [← List.elem_iff] at hmem
    rw [List.contains] at h
    rw [h] at hmem
    exact Bool.noConfusion hmem
  · intro h
    cases hc : l.contains a
    · rfl
    · rw [List.contains] at hc
      exact absurd (List.elem_iff.mp hc) h

/-- The deletion loop only removes paths. -/
theorem removeBins_subset (failing : List String) :
    ∀ bins fs q, q ∈ (removeBins failing bins fs).1 → q ∈ fs := by
  intro bins
  induction bins with
  | nil => exact fun fs q hq => hq
  | cons b rest ih =>
    intro fs q hq
    by_cases h1 : fs.contains b = true
    · by_cases h2 : failing.contains b = true
      · simp only [removeBins, h1, h2, if_true] at hq
        exact hq
      · rw [Bool.not_eq_true] at h2
        simp only [removeBins, h1, h2, Bool.false_eq_true, if_true, if_false] at hq
        exact (List.mem_filter.mp (ih _ q hq)).1
    · rw [Bool.not_eq_true] at h1
      simp only [removeBins, h1, Bool.false_eq_true, if_false] at hq
      exact ih fs q hq

/-- When the deletion loop succeeds, every listed path is gone. -/
theorem removeBins_none_complete (failing : List String) :
    ∀ bins fs, (removeBins failing bins fs).2 = none →
      ∀ b ∈ bins, b ∉ (removeBins failing bins fs).1 := by
  intro bins
  induction bins with
  | nil => intro fs hnone b hb; exact absurd hb (List.not_mem_nil b)
  | cons b0 rest ih =>
    intro fs hnone b hb
    by_cases h1 : fs.contains b0 = true
    · by_cases h2 : failing.contains b0 = true
      · exfalso
        simp only [removeBins, h1, h2, if_true] at hnone
        exact Option.noConfusion hnone
      · rw [Bool.not_eq_true] at h2
        simp only [removeBins, h1, h2, Bool.false_eq_true, if_true, if_false] at hnone ⊢
        rcases List.mem_cons.mp hb with rfl | hb2
        · intro hmem
          have := List.mem_filter.mp (removeBins_subset failing rest _ b hmem)
          simp at this
        · exact ih _ hnone b hb2
    · rw [Bool.not_eq_true] at h1
      simp only [removeBins, h1, Bool.false_eq_true, if_false] at hnone ⊢
      rcases List.mem_cons.mp hb with rfl | hb2
      · intro hmem
        exact contains_eq_false_iff_not_mem.mp h1 (removeBins_subset failing rest fs b hmem)
      · exact ih fs hnone b hb2

/-- Deleting paths that are all already absent is a silent no-op
(`NotFound` swallowed for each). -/
theorem removeBins_all_absent (failing : List String) :
    ∀ bins fs, (∀ b ∈ bins, b ∉ fs) → removeBins failing bins fs = (fs, none) := by
  intro bins
  induction bins with
  | nil => intro fs hab; rfl
  | cons b rest ih =>
    intro fs hab
    have h1 : fs.contains b = false :=
      contains_eq_false_iff_not_mem.mpr (hab b (List.mem_cons_self b rest))
    simp only [removeBins, h1, Bool.false_eq_true, if_false]
    exact ih fs (fun q hq => hab q (List.mem_cons_of_mem b hq))

/-- Removing a key leaves no entry with that key. -/
theorem installsLookup_filter_self (repo : String) (l : List (String × InstallEntry)) :
    installsLookup repo (l.filter (fun kv => decide (kv.1 ≠ repo))) = none := by
  induction l with
  | nil => rfl
  | cons kv t ih =>
    obtain ⟨k, e⟩ := kv
    by_cases h : k = repo
    · have hp : (decide ((k, e).1 ≠ repo)) = false := by simp [h]
      rw [List.filter_cons, hp]
      simp only [Bool.false_eq_true, if_false]
      exact ih
    · have hp : (decide ((k, e).1 ≠ repo)) = true := by simp [h]
      rw [List.filter_cons, hp, if_pos rfl]
      simp only [installsLookup, h, if_false]
      exact ih

/-- Claim C9: `remove_install` fails with `noInstalls` when the state
file is missing; deleting already-absent recorded paths is silently
swallowed; an unknown key fails with `entryMissing` and changes
nothing; when every recorded path deletes cleanly the entry's paths are
all gone, the ledger is rewritten without the entry, and a second
remove of the same key fails with `entryMissing`; a hard deletion error
aborts with `fsError` before the ledger file is rewritten, so the
persisted ledger is unchanged. -/
theorem C9_remove_install_behaviour (repo : String) (w : World) :
    (w.ledger = none → remove_install repo w = (w, some RemoveError.noInstalls)) ∧
    (∀ bins fs, (∀ b ∈ bins, b ∉ fs) → removeBins w.failing bins fs = (fs, none)) ∧
    (∀ content state, w.ledger = some content →
      read_state_locked content = some state →
      (installsLookup repo state.installs = none →
        remove_install repo w = (w, some RemoveError.entryMissing)) ∧
      (∀ entry, installsLookup repo state.installs = some entry →
        (∀ fs2, removeBins w.failing (all_bins entry) w.fs = (fs2, none) →
          remove_install repo w =
            ({ ledger := some (write_state_locked
                ⟨state.installs.filter (fun kv => decide (kv.1 ≠ repo))⟩),
               fs := fs2, failing := w.failing }, none) ∧
          (∀ b ∈ all_bins entry, b ∉ fs2) ∧
          (remove_install repo (remove_install repo w).1).2 =
            some RemoveError.entryMissing) ∧
        (∀ fs2 p, removeBins w.failing (all_bins entry) w.fs = (fs2, some p) →
          remove_install repo w =
            ({ w with fs := fs2 }, some (RemoveError.fsError p)) ∧
          (remove_install repo w).1.ledger = w.ledger))) := by
  refine ⟨?_, ?_, ?_⟩
  · intro h
    rw [remove_install.eq_def, h]
  · exact fun bins fs h => removeBins_all_absent w.failing bins fs h
  · intro content state hw hread
    constructor
    · intro hnone
      rw [remove_install.eq_def, hw]
      simp only [hread, hnone]
    · intro entry hentry
      constructor
      · intro fs2 hrb
        have heq : remove_install repo w =
            ({ ledger := some (write_state_locked
                ⟨state.installs.filter (fun kv => decide (kv.1 ≠ repo))⟩),
               fs := fs2, failing := w.failing }, none) := by
          rw [remove_install.eq_def, hw]
          simp only [hread, hentry, hrb]
        have hcomp := removeBins_none_complete w.failing (all_bins entry) w.fs
          (by rw [hrb])
        refine ⟨heq, ?_, ?_⟩
        · intro b hb
          have := hcomp b hb
          rw [hrb] at this
          exact this
        · rw [heq]
          rw [remove_install.eq_def]
          simp only [read_write_roundtrip, installsLookup_filter_self]
      · intro fs2 p hrb
        have heq : remove_install repo w =
            ({ w with fs := fs2 }, some (RemoveError.fsError p)) := by
          rw [remove_install.eq_def, hw]
          simp only [hread, hentry, hrb]
        exact ⟨heq, by rw [heq]⟩


theorem C9_remove_install_behaviour_witness :
    remove_install "mxcl/yoink" (World.mk none [] []) =
      (World.mk none [] [], some RemoveError.noInstalls) ∧
    removeBins [] ["/gone"] [] = ([], none) ∧
    remove_install "other/repo"
      (World.mk (some (write_state_locked (InstallState.mk
        [("mxcl/yoink", InstallEntry.mk "v0.1.0" "/tmp/yoink" [])])))
        ["/tmp/yoink"] []) =
      (World.mk (some (write_state_locked (InstallState.mk
        [("mxcl/yoink", InstallEntry.mk "v0.1.0" "/tmp/yoink" [])])))
        ["/tmp/yoink"] [], some RemoveError.entryMissing) ∧
    remove_install "mxcl/yoink"
      (World.mk (some (write_state_locked (InstallState.mk
        [("mxcl/yoink", InstallEntry.mk "v0.1.0" "/tmp/yoink" [])])))
        ["/tmp/yoink"] []) =
      (World.mk (some (write_state_locked (InstallState.mk []))) [] [], none) ∧
    "/tmp/yoink" ∉ ([] : List String) ∧
    (remove_install "mxcl/yoink"
      (remove_install "mxcl/yoink"
        (World.mk (some (write_state_locked (InstallState.mk
          [("mxcl/yoink", InstallEntry.mk "v0.1.0" "/tmp/yoink" [])])))
          ["/tmp/yoink"] [])).1).2 = some RemoveError.entryMissing ∧
    remove_install "mxcl/yoink"
      (World.mk (some (write_state_locked (InstallState.mk
        [("mxcl/yoink", InstallEntry.mk "v0.1.0" "/tmp/yoink" [])])))
        ["/tmp/yoink"] ["/tmp/yoink"]) =
      (World.mk (some (write_state_locked (InstallState.mk
        [("mxcl/yoink", InstallEntry.mk "v0.1.0" "/tmp/yoink" [])])))
        ["/tmp/yoink"] ["/tmp/yoink"], some (RemoveError.fsError "/tmp/yoink")) ∧
    (remove_install "mxcl/yoink"
      (World.mk (some (write_state_locked (InstallState.mk
        [("mxcl/yoink", InstallEntry.mk "v0.1.0" "/tmp/yoink" [])])))
        ["/tmp/yoink"] ["/tmp/yoink"])).1.ledger =
      some (write_state_locked (InstallState.mk
        [("mxcl/yoink", InstallEntry.mk "v0.1.0" "/tmp/yoink" [])])) := by
  have hnone := (C9_remove_install_behaviour "mxcl/yoink" (World.mk none [] [])).1 rfl
  have habs := (C9_remove_install_behaviour "mxcl/yoink" (World.mk none [] [])).2.1
    ["/gone"] [] (by decide)
  have hmiss := ((C9_remove_install_behaviour "other/repo"
      (World.mk (some (write_state_locked (InstallState.mk
        [("mxcl/yoink", InstallEntry.mk "v0.1.0" "/tmp/yoink" [])])))
        ["/tmp/yoink"] [])).2.2
      (write_state_locked (InstallState.mk
        [("mxcl/yoink", InstallEntry.mk "v0.1.0" "/tmp/yoink" [])]))
      (InstallState.mk [("mxcl/yoink", InstallEntry.mk "v0.1.0" "/tmp/yoink" [])])
      rfl
      (read_write_roundtrip (InstallState.mk
        [("mxcl/yoink", InstallEntry.mk "v0.1.0" "/tmp/yoink" [])]))).1 (by decide)
  have hsucc := (((C9_remove_install_behaviour "mxcl/yoink"
      (World.mk (some (write_state_locked (InstallState.mk
        [("mxcl/yoink", InstallEntry.mk "v0.1.0" "/tmp/yoink" [])])))
        ["/tmp/yoink"] [])).2.2
      (write_state_locked (InstallState.mk
        [("mxcl/yoink", InstallEntry.mk "v0.1.0" "/tmp/yoink" [])]))
      (InstallState.mk [("mxcl/yoink", InstallEntry.mk "v0.1.0" "/tmp/yoink" [])])
      rfl
      (read_write_roundtrip (InstallState.mk
        [("mxcl/yoink", InstallEntry.mk "v0.1.0" "/tmp/yoink" [])]))).2
      (InstallEntry.mk "v0.1.0" "/tmp/yoink" []) (by decide)).1 [] (by decide)
  have herr := (((C9_remove_install_behaviour "mxcl/yoink"
      (World.mk (some (write_state_locked (InstallState.mk
        [("mxcl/yoink", InstallEntry.mk "v0.1.0" "/tmp/yoink" [])])))
        ["/tmp/yoink"] ["/tmp/yoink"])).2.2
      (write_state_locked (InstallState.mk
        [("mxcl/yoink", InstallEntry.mk "v0.1.0" "/tmp/yoink" [])]))
      (InstallState.mk [("mxcl/yoink", InstallEntry.mk "v0.1.0" "/tmp/yoink" [])])
      rfl
      (read_write_roundtrip (InstallState.mk
        [("mxcl/yoink", InstallEntry.mk "v0.1.0" "/tmp/yoink" [])]))).2
      (InstallEntry.mk "v0.1.0" "/tmp/yoink" []) (by decide)).2
      ["/tmp/yoink"] "/tmp/yoink" (by decide)
  exact ⟨hnone, habs, hmiss, hsucc.1, hsucc.2.1 "/tmp/yoink" (by decide),
    hsucc.2.2, herr.1, by rw [herr.1]⟩

end Yoink
